import Mathlib

/-!
Verification of the Hurl request parser/serializer (`src/lib/hurl-parser.ts`)
and the response/assertion extraction logic (`src/components/response-panel.tsx`).

Strings are modelled as `List Char` (`Str`), so that the JavaScript string
operations used by the source (`split("\n")`, `trim`, `indexOf`, `substring`,
`startsWith`, `toUpperCase`, `split(/\s+/)`, `join("\n")`, `slice`) become
explicit, executable list functions.  Whitespace is modelled as the ASCII
whitespace characters (space, tab, carriage return, newline) and
`toUpperCase` as the ASCII letter map, which is the behaviour of the
JavaScript operations on the ASCII texts the format consists of.
-/

namespace Hurl

/-- Strings as explicit character lists. -/
abbrev Str := List Char

/-- ASCII whitespace, the class trimmed by `String.prototype.trim` on ASCII input. -/
def isWs (c : Char) : Bool := c == ' ' || c == '\t' || c == '\r' || c == '\n'

/-- Leading-whitespace removal. -/
def trimLeft (s : Str) : Str := s.dropWhile isWs

/-- Trailing-whitespace removal. -/
def trimRight (s : Str) : Str := s.rdropWhile isWs

/-- JavaScript `s.trim()`. -/
def trim (s : Str) : Str := trimLeft (trimRight s)

/-- JavaScript `s.startsWith(p)`: `hasPrefix s p` is true when `p` is a prefix of `s`. -/
def hasPrefix : Str → Str → Bool
  | _, [] => true
  | [], _ :: _ => false
  | c :: s, d :: p => c == d && hasPrefix s p

/-- ASCII uppercase map for a single character, modelling `String.prototype.toUpperCase`. -/
def upChar : Char → Char
  | 'a' => 'A' | 'b' => 'B' | 'c' => 'C' | 'd' => 'D' | 'e' => 'E' | 'f' => 'F'
  | 'g' => 'G' | 'h' => 'H' | 'i' => 'I' | 'j' => 'J' | 'k' => 'K' | 'l' => 'L'
  | 'm' => 'M' | 'n' => 'N' | 'o' => 'O' | 'p' => 'P' | 'q' => 'Q' | 'r' => 'R'
  | 's' => 'S' | 't' => 'T' | 'u' => 'U' | 'v' => 'V' | 'w' => 'W' | 'x' => 'X'
  | 'y' => 'Y' | 'z' => 'Z'
  | c => c

/-- JavaScript `s.toUpperCase()` (ASCII model). -/
def toUpper (s : Str) : Str := s.map upChar

/-- Split at the first occurrence of `sep`: models `indexOf` + the two
`substring` calls.  Returns `none` when `sep` does not occur (`indexOf === -1`). -/
def splitFirst (sep : Char) : Str → Option (Str × Str)
  | [] => none
  | c :: cs =>
    if c == sep then some ([], cs)
    else (splitFirst sep cs).map (fun p => (c :: p.1, p.2))

/-- JavaScript `s.split("\n")`: every `'\n'` is a separator, empty pieces kept,
the empty string yields `[""]`. -/
def splitNl : Str → List Str
  | [] => [[]]
  | c :: cs =>
    if c == '\n' then [] :: splitNl cs
    else
      match splitNl cs with
      | [] => [[c]]
      | l :: ls => (c :: l) :: ls

/-- JavaScript `lines.join("\n")`. -/
def joinNl : List Str → Str
  | [] => []
  | [l] => l
  | l :: m :: ls => l ++ '\n' :: joinNl (m :: ls)

/-- JavaScript `s.split(/\s+/)`: split on maximal whitespace runs; a leading
(resp. trailing) run contributes a leading (resp. trailing) empty piece.
A whitespace character followed by more whitespace belongs to the same run,
so only the last character of a run produces a boundary. -/
def splitWs : Str → List Str
  | [] => [[]]
  | c :: cs =>
    if isWs c then
      match cs with
      | [] => [[], []]
      | d :: _ => if isWs d then splitWs cs else [] :: splitWs cs
    else
      match splitWs cs with
      | [] => [[c]]
      | l :: ls => (c :: l) :: ls

/-! ## The request document model (`HurlRequest` in `hurl-parser.ts`) -/

structure Header where
  key : Str
  value : Str
deriving DecidableEq, Repr

structure HurlRequest where
  method : Str
  url : Str
  headers : List Header
  body : Str
  responseStatus : Str
  captures : List Str
  asserts : List Str
deriving DecidableEq, Repr

/-- The literal `"HTTP"`. -/
def httpPre : Str := ['H', 'T', 'T', 'P']

/-- The literal `"[Captures]"`. -/
def capMark : Str := "[Captures]".data

/-- The literal `"[Asserts]"`. -/
def assMark : Str := "[Asserts]".data

/-- The initial `result` record of `parseHurl` (all fields empty, method `GET`). -/
def emptyRequest : HurlRequest :=
  { method := "GET".data, url := [], headers := [], body := []
    responseStatus := [], captures := [], asserts := [] }

/-- `lines[i].trim().startsWith("HTTP")`. -/
def isHttpLine (l : Str) : Bool := hasPrefix (trim l) httpPre

/-- Line 1 of `parseHurl`: `METHOD URL`, split on the first space; without a
space the whole (trimmed) line is the method; an empty line keeps the defaults. -/
def parseFirstLine (l : Str) : Str × Str :=
  let f := trim l
  if f = [] then ("GET".data, [])
  else
    match splitFirst ' ' f with
    | some mu => (toUpper mu.1, trim mu.2)
    | none => (toUpper f, [])

/-- The header loop of `parseHurl` (lines 45–66): consume `Key: Value` lines
until a blank line (consumed), an `HTTP` line, a brace/bracket-prefixed line,
or a line without a colon (all left in place except the blank).
Returns the headers read and the remaining lines. -/
def parseHeaders : List Str → List Header × List Str
  | [] => ([], [])
  | l :: ls =>
    let t := trim l
    if t = [] then ([], ls)
    else if hasPrefix t httpPre then ([], l :: ls)
    else
      match splitFirst ':' t with
      | some kv =>
        if hasPrefix t ['{'] || hasPrefix t ['['] then ([], l :: ls)
        else
          let r := parseHeaders ls
          (⟨trim kv.1, trim kv.2⟩ :: r.1, r.2)
      | none => ([], l :: ls)

/-- `while (bodyLines.length > 0 && bodyLines[last].trim() === "") pop`. -/
def dropTrailingBlanks (ls : List Str) : List Str :=
  ls.rdropWhile (fun l => trim l = [])

/-- Lines 84–91 of `parseHurl`: `httpLine.split(/\s+/)` and `parts[1]` when
at least two parts exist, else the status stays empty. -/
def statusOf (l : Str) : Str :=
  match splitWs (trim l) with
  | _ :: p :: _ => p
  | _ => []

/-- The `currentSection` state of the section loop. -/
inductive Sect
  | secNone
  | secCaps
  | secAsserts
deriving DecidableEq, Repr

/-- The `[Captures]`/`[Asserts]` loop of `parseHurl` (lines 93–120): marker
lines switch the section; other lines are pushed (trimmed) onto the current
section's list; lines before any marker are dropped. -/
def parseSections : List Str → Sect → List Str × List Str
  | [], _ => ([], [])
  | l :: ls, sec =>
    let t := trim l
    if t = capMark then parseSections ls Sect.secCaps
    else if t = assMark then parseSections ls Sect.secAsserts
    else
      match sec with
      | Sect.secCaps => let r := parseSections ls sec; (t :: r.1, r.2)
      | Sect.secAsserts => let r := parseSections ls sec; (r.1, t :: r.2)
      | Sect.secNone => parseSections ls sec

/-- The main body of `parseHurl` after the trailing-empty-line pop: request
line, header loop, body block, response line, sections. -/
def parseLines : List Str → HurlRequest
  | [] => emptyRequest
  | first :: rest =>
    let mu := parseFirstLine first
    let hr := parseHeaders rest
    let bodyLines := hr.2.takeWhile (fun l => !isHttpLine l)
    let rest2 := hr.2.dropWhile (fun l => !isHttpLine l)
    let body := joinNl (dropTrailingBlanks bodyLines)
    let sr : Str × List Str :=
      match rest2 with
      | [] => ([], [])
      | l :: ls => if isHttpLine l then (statusOf l, ls) else ([], l :: ls)
    let ca := parseSections sr.2 Sect.secNone
    { method := mu.1, url := mu.2, headers := hr.1, body := body
      responseStatus := sr.1, captures := ca.1, asserts := ca.2 }

/-- `parseHurl` (lines 11–123 of `hurl-parser.ts`): split into lines, pop one
trailing empty line (a file-ending newline), then parse the lines. -/
def parseHurl (content : Str) : HurlRequest :=
  let lines0 := splitNl content
  parseLines (if lines0.getLast? = some [] then lines0.dropLast else lines0)

/-- A serialized header line `` `${header.key}: ${header.value}` ``. -/
def hline (h : Header) : Str := h.key ++ ':' :: ' ' :: h.value

/-- The `lines` array built by `serializeHurl` (lines 125–168): request line,
header lines, blank + body when the body has non-whitespace content, blank +
`HTTP <status or "*">` + `[Captures]`/`[Asserts]` sections when any of
status/captures/asserts is non-empty, and a final blank line. -/
def serializeLines (r : HurlRequest) : List Str :=
  [r.method ++ ' ' :: r.url]
  ++ r.headers.map hline
  ++ (if trim r.body = [] then [] else [[], r.body])
  ++ (if r.responseStatus ≠ [] ∨ r.captures ≠ [] ∨ r.asserts ≠ [] then
        ([] : Str)
          :: (httpPre ++ ' ' :: (if r.responseStatus = [] then ['*'] else r.responseStatus))
          :: ((if r.captures = [] then [] else capMark :: r.captures)
              ++ (if r.asserts = [] then [] else assMark :: r.asserts))
      else [])
  ++ [[]]

/-- `serializeHurl` (lines 125–169): the built lines joined with `"\n"`. -/
def serializeHurl (r : HurlRequest) : Str := joinNl (serializeLines r)

/-- The one normalization `parseHurl ∘ serializeHurl` performs on a parsed
document: an empty expected status is rendered `"*"` when a captures or
asserts section forces the `HTTP` line to be emitted. -/
def normStatus (r : HurlRequest) : HurlRequest :=
  if r.responseStatus = [] ∧ (r.captures ≠ [] ∨ r.asserts ≠ []) then
    { r with responseStatus := ['*'] }
  else r

/-! ## Character-level lemmas -/

theorem upChar_ws (c : Char) : isWs (upChar c) = isWs c := by
  unfold upChar; split <;> rfl

theorem upChar_eq_of_ws {c d : Char} (hd : isWs d = true) (h : upChar c = d) : c = d := by
  revert h; unfold upChar; split <;> intro h <;> subst h <;> first | rfl | exact absurd hd (by decide)

theorem upChar_cases (c : Char) :
    upChar c = c ∨ upChar c ∈ ['A', 'B', 'C', 'D', 'E', 'F', 'G', 'H', 'I', 'J', 'K', 'L',
      'M', 'N', 'O', 'P', 'Q', 'R', 'S', 'T', 'U', 'V', 'W', 'X', 'Y', 'Z'] := by
  unfold upChar; split <;> simp

theorem upChar_fix_upper :
    ∀ d ∈ ['A', 'B', 'C', 'D', 'E', 'F', 'G', 'H', 'I', 'J', 'K', 'L',
      'M', 'N', 'O', 'P', 'Q', 'R', 'S', 'T', 'U', 'V', 'W', 'X', 'Y', 'Z'],
      upChar d = d := by decide

theorem upChar_idem (c : Char) : upChar (upChar c) = upChar c := by
  rcases upChar_cases c with h | h
  · rw [h]; exact h
  · exact upChar_fix_upper _ h

theorem toUpper_idem (s : Str) : toUpper (toUpper s) = toUpper s := by
  simp only [toUpper, List.map_map]
  exact List.map_congr_left fun c _ => upChar_idem c

theorem mem_toUpper_of_ws {d : Char} (hd : isWs d = true) {s : Str} (h : d ∈ toUpper s) :
    d ∈ s := by
  simp only [toUpper, List.mem_map] at h
  obtain ⟨c, hc, hcd⟩ := h
  rwa [upChar_eq_of_ws hd hcd] at hc

theorem toUpper_ne_nil {s : Str} (h : s ≠ []) : toUpper s ≠ [] := by
  simpa [toUpper] using h

/-! ## Trim lemmas -/

theorem trim_nil : trim [] = [] := rfl

theorem trimLeft_cons_pos {c : Char} (h : isWs c = true) (s : Str) :
    trimLeft (c :: s) = trimLeft s := by
  simp [trimLeft, List.dropWhile_cons, h]

theorem trimLeft_cons_neg {c : Char} (h : isWs c = false) (s : Str) :
    trimLeft (c :: s) = c :: s := by
  simp [trimLeft, List.dropWhile_cons, h]

theorem trimRight_concat_pos {c : Char} (h : isWs c = true) (s : Str) :
    trimRight (s ++ [c]) = trimRight s :=
  List.rdropWhile_concat_pos _ _ _ h

theorem trimRight_concat_neg {c : Char} (h : isWs c = false) (s : Str) :
    trimRight (s ++ [c]) = s ++ [c] :=
  List.rdropWhile_concat_neg _ _ _ (by simp [h])

theorem trimRight_eq_self {s : Str} (h : ∀ hs : s ≠ [], isWs (s.getLast hs) = false) :
    trimRight s = s :=
  List.rdropWhile_eq_self_iff.mpr (by simpa using h)

theorem trimLeft_eq_self {s : Str} (h : ∀ c, s.head? = some c → isWs c = false) :
    trimLeft s = s := by
  cases s with
  | nil => rfl
  | cons c cs => exact trimLeft_cons_neg (h c rfl) cs

/-- The first character of a string fixed by head/last non-whitespace conditions. -/
def headNotWs (s : Str) : Prop := ∀ c, s.head? = some c → isWs c = false

def lastNotWs (s : Str) : Prop := ∀ c, s.getLast? = some c → isWs c = false

/-- A string whose first and last characters are not whitespace is fixed by `trim`. -/
theorem trim_eq_self_of {s : Str} (h1 : headNotWs s) (h2 : lastNotWs s) : trim s = s := by
  rw [trim, trimRight_eq_self, trimLeft_eq_self h1]
  intro hs
  exact h2 _ ((List.getLast?_eq_getLast_of_ne_nil hs).symm ▸ rfl)

theorem trim_eq_self_split {s : Str} (h : trim s = s) :
    trimLeft s = s ∧ trimRight s = s := by
  have hpre : trimRight s <+: s := List.rdropWhile_prefix _ _
  have hsuf : trimLeft (trimRight s) <:+ trimRight s := List.dropWhile_suffix _
  have hlen : s.length ≤ (trimRight s).length := by
    calc s.length = (trimLeft (trimRight s)).length := by rw [trim] at h; rw [h]
    _ ≤ (trimRight s).length := hsuf.sublist.length_le
  have hR : trimRight s = s := hpre.eq_of_length (Nat.le_antisymm hpre.sublist.length_le hlen)
  refine ⟨?_, hR⟩
  rw [trim, hR] at h
  exact h

theorem head?_dropWhile_not_ws (l : Str) :
    ∀ c, (l.dropWhile isWs).head? = some c → isWs c = false := by
  induction l with
  | nil => intro c hc; exact Option.noConfusion hc
  | cons a l ih =>
    intro c hc
    rw [List.dropWhile_cons] at hc
    by_cases h : isWs a = true
    · rw [if_pos h] at hc; exact ih c hc
    · rw [if_neg h] at hc
      simp only [List.head?_cons, Option.some.injEq] at hc
      subst hc
      simpa using h

theorem headNotWs_trim (s : Str) : headNotWs (trim s) := fun c hc =>
  head?_dropWhile_not_ws (trimRight s) c hc

theorem lastNotWs_trim (s : Str) : lastNotWs (trim s) := by
  intro c hc
  have hne : trim s ≠ [] := by intro h; rw [h] at hc; exact Option.noConfusion hc
  have hneR : trimRight s ≠ [] := by
    intro h
    apply hne
    show trimLeft (trimRight s) = []
    rw [h]; rfl
  have hlastR : isWs ((trimRight s).getLast hneR) = false := by
    simpa using List.rdropWhile_last_not isWs s hneR
  obtain ⟨pre, hpre⟩ : trim s <:+ trimRight s := List.dropWhile_suffix _
  have heq : (trimRight s).getLast? = some c := by
    rw [← hpre, List.getLast?_append_of_ne_nil pre hne, hc]
  rw [List.getLast?_eq_getLast_of_ne_nil hneR] at heq
  simp only [Option.some.injEq] at heq
  rw [heq] at hlastR
  exact hlastR

theorem trim_idem (s : Str) : trim (trim s) = trim s :=
  trim_eq_self_of (headNotWs_trim s) (lastNotWs_trim s)

/-- Everything removed by `trim` is whitespace, so a non-whitespace character survives. -/
theorem trim_ne_nil_of_mem {s : Str} {c : Char} (hc : c ∈ s) (hws : isWs c = false) :
    trim s ≠ [] := by
  intro h
  have hR : ∀ x ∈ trimRight s, isWs x = true := by
    have := List.dropWhile_eq_nil_iff.mp (by rw [trim] at h; exact h)
    simpa using this
  have hsplit : trimRight s ++ s.rtakeWhile isWs = s := by
    simp only [trimRight, List.rdropWhile, List.rtakeWhile]
    rw [← List.reverse_append, List.takeWhile_append_dropWhile isWs,
      List.reverse_reverse]
  rcases (by rw [hsplit]; exact hc : c ∈ trimRight s ++ s.rtakeWhile isWs) |> List.mem_append.mp
    with h1 | h2
  · rw [hR c h1] at hws; exact Bool.noConfusion hws
  · rw [List.mem_rtakeWhile_imp h2] at hws; exact Bool.noConfusion hws

theorem mem_of_mem_trim {s : Str} {c : Char} (hc : c ∈ trim s) : c ∈ s :=
  ((List.dropWhile_suffix isWs).sublist.trans (List.rdropWhile_prefix isWs s).sublist).mem hc

theorem headNotWs_of_trimmed {s : Str} (h : trim s = s) : headNotWs s := h ▸ headNotWs_trim s

theorem lastNotWs_of_trimmed {s : Str} (h : trim s = s) : lastNotWs s := h ▸ lastNotWs_trim s

theorem headNotWs_append {k z : Str} {d : Char} (hk : headNotWs k) (hd : isWs d = false) :
    headNotWs (k ++ d :: z) := by
  cases k with
  | nil => intro c hc; simp only [List.nil_append, List.head?_cons, Option.some.injEq] at hc
           subst hc; exact hd
  | cons a k' =>
    intro c hc
    simp only [List.cons_append, List.head?_cons, Option.some.injEq] at hc
    subst hc
    exact hk a rfl

theorem lastNotWs_append {k v : Str} (hv : lastNotWs v) (hvne : v ≠ []) :
    lastNotWs (k ++ v) := by
  intro c hc
  rw [List.getLast?_append_of_ne_nil k hvne] at hc
  exact hv c hc

theorem headNotWs_append_of_ne_nil {k z : Str} (hk : headNotWs k) (hkne : k ≠ []) :
    headNotWs (k ++ z) := by
  cases k with
  | nil => exact absurd rfl hkne
  | cons a k' =>
    intro c hc
    simp only [List.cons_append, List.head?_cons, Option.some.injEq] at hc
    subst hc
    exact hk a rfl

/-- `trim` fixes `"<method> <url>"` when the method starts with a non-whitespace
character and the url is non-empty and trimmed. -/
theorem trim_method_space_url {m u : Str} (hm : headNotWs m) (hmne : m ≠ [])
    (hu : trim u = u) (hune : u ≠ []) : trim (m ++ ' ' :: u) = m ++ ' ' :: u := by
  refine trim_eq_self_of (headNotWs_append_of_ne_nil hm hmne) ?_
  intro c hc
  rw [show (m ++ ' ' :: u : Str) = (m ++ [' ']) ++ u by simp] at hc
  rw [List.getLast?_append_of_ne_nil _ hune] at hc
  exact lastNotWs_of_trimmed hu c hc

/-- `trim` of `"<method> "` (empty url) gives back a trimmed method. -/
theorem trim_method_space {m : Str} (hm : trim m = m) : trim (m ++ [' ']) = m := by
  show trimLeft (trimRight (m ++ [' '])) = m
  rw [trimRight_concat_pos (by decide), (trim_eq_self_split hm).2, (trim_eq_self_split hm).1]

/-- `trim` of `" " ++ v` for trimmed non-empty `v`. -/
theorem trim_sp_cons {v : Str} (hv : trim v = v) (hvne : v ≠ []) : trim (' ' :: v) = v := by
  show trimLeft (trimRight (' ' :: v)) = v
  have hR : trimRight (' ' :: v) = ' ' :: v := by
    refine trimRight_eq_self ?_
    intro hs
    have : (' ' :: v : Str).getLast? = v.getLast? := List.getLast?_append_of_ne_nil [' '] hvne
    rw [List.getLast?_eq_getLast_of_ne_nil hs, List.getLast?_eq_getLast_of_ne_nil hvne] at this
    simp only [Option.some.injEq] at this
    rw [this]
    exact lastNotWs_of_trimmed hv _ (List.getLast?_eq_getLast_of_ne_nil hvne)
  rw [hR, trimLeft_cons_pos (by decide), (trim_eq_self_split hv).1]

/-- `trim` of a serialized header line `"<key>: <value>"`. -/
theorem trim_hline {k v : Str} (hk : trim k = k) (hv : trim v = v) :
    trim (k ++ ':' :: ' ' :: v) = k ++ ':' :: (if v = [] then [] else ' ' :: v) := by
  have hcolon : trim (k ++ [':']) = k ++ [':'] := by
    refine trim_eq_self_of (headNotWs_append (headNotWs_of_trimmed hk) (by decide)) ?_
    intro c hc
    rw [List.getLast?_append_of_ne_nil k (by simp)] at hc
    simp only [List.getLast?_singleton, Option.some.injEq] at hc
    subst hc
    decide
  by_cases hvne : v = []
  · subst hvne
    simp only [if_pos rfl]
    rw [show (k ++ ':' :: ' ' :: [] : Str) = (k ++ [':']) ++ [' '] by simp]
    rw [trim_method_space hcolon]
    simp
  · rw [if_neg hvne]
    refine trim_eq_self_of (headNotWs_append (headNotWs_of_trimmed hk) (by decide)) ?_
    intro c hc
    rw [show (k ++ ':' :: ' ' :: v : Str) = (k ++ [':', ' ']) ++ v by simp] at hc
    rw [List.getLast?_append_of_ne_nil _ hvne] at hc
    exact lastNotWs_of_trimmed hv c hc

/-! ## `hasPrefix` and `splitFirst` lemmas -/

theorem hasPrefix_append (p z : Str) : hasPrefix (p ++ z) p = true := by
  induction p with
  | nil => simp [hasPrefix]
  | cons c p ih => simp [hasPrefix, ih]

theorem hasPrefix_nil {p : Str} (hp : p ≠ []) : hasPrefix [] p = false := by
  cases p with
  | nil => exact absurd rfl hp
  | cons c p => rfl

/-- A key that does not start with `"HTTP"` yields a header line that does not
start with `"HTTP"` either, because the colon blocks the fourth position. -/
theorem hasPrefix_http_colon {k z : Str} (hk : hasPrefix k httpPre = false) :
    hasPrefix (k ++ ':' :: z) httpPre = false := by
  rcases k with _ | ⟨a, _ | ⟨b, _ | ⟨c, _ | ⟨d, k'⟩⟩⟩⟩
  · rfl
  · simp only [httpPre, hasPrefix, List.cons_append, List.nil_append,
      show (':' == 'T') = false from rfl, Bool.false_and, Bool.and_false]
  · simp only [httpPre, hasPrefix, List.cons_append, List.nil_append,
      show (':' == 'T') = false from rfl, Bool.false_and, Bool.and_false]
  · simp only [httpPre, hasPrefix, List.cons_append, List.nil_append,
      show (':' == 'P') = false from rfl, Bool.false_and, Bool.and_false]
  · simpa only [httpPre, hasPrefix, List.cons_append, Bool.and_true] using hk

theorem splitFirst_eq_none {sep : Char} {s : Str} (h : sep ∉ s) :
    splitFirst sep s = none := by
  induction s with
  | nil => rfl
  | cons c cs ih =>
    have hc : (c == sep) = false := by
      simp only [beq_eq_false_iff_ne, ne_eq]
      intro hcc; exact h (hcc ▸ List.mem_cons_self c cs)
    simp only [splitFirst, hc, Bool.false_eq_true, if_false,
      ih (fun hm => h (List.mem_cons_of_mem c hm)), Option.map_none']

theorem splitFirst_append {sep : Char} {a z : Str} (h : sep ∉ a) :
    splitFirst sep (a ++ sep :: z) = some (a, z) := by
  induction a with
  | nil => simp [splitFirst]
  | cons c cs ih =>
    have hc : (c == sep) = false := by
      simp only [beq_eq_false_iff_ne, ne_eq]
      intro hcc; exact h (hcc ▸ List.mem_cons_self c cs)
    have := ih (fun hm => h (List.mem_cons_of_mem c hm))
    simp only [List.cons_append, splitFirst, hc, Bool.false_eq_true, if_false, List.append_eq,
      this, Option.map_some']

theorem not_mem_of_splitFirst_eq_none {sep : Char} {s : Str}
    (h : splitFirst sep s = none) : sep ∉ s := by
  induction s with
  | nil => simp
  | cons c cs ih =>
    by_cases hc : (c == sep) = true
    · simp [splitFirst, hc] at h
    · simp only [splitFirst, hc, Bool.false_eq_true, if_false] at h
      rcases ho : splitFirst sep cs with _ | p
      · intro hm
        rcases List.mem_cons.mp hm with rfl | hm'
        · simp at hc
        · exact ih ho hm'
      · rw [ho] at h; simp at h

/-- The pieces of a successful `splitFirst` reassemble the input, the first
piece not containing the separator. -/
theorem splitFirst_eq_some {sep : Char} {s a z : Str}
    (h : splitFirst sep s = some (a, z)) : s = a ++ sep :: z ∧ sep ∉ a := by
  induction s generalizing a with
  | nil => exact Option.noConfusion h
  | cons c cs ih =>
    by_cases hc : (c == sep) = true
    · simp only [splitFirst, hc, if_true, Option.some.injEq, Prod.mk.injEq] at h
      obtain ⟨rfl, rfl⟩ := h
      simp [(by simpa using hc : c = sep)]
    · simp only [splitFirst, hc, Bool.false_eq_true, if_false] at h
      rcases ho : splitFirst sep cs with _ | ⟨a', z'⟩
      · rw [ho] at h; simp at h
      · rw [ho] at h
        simp only [Option.map_some', Option.some.injEq, Prod.mk.injEq] at h
        obtain ⟨ha, hz⟩ := h
        subst ha
        subst hz
        obtain ⟨hs, hna⟩ := ih ho
        refine ⟨by simp [hs], ?_⟩
        intro hm
        rcases List.mem_cons.mp hm with rfl | hm'
        · simp at hc
        · exact hna hm'

/-! ## `splitNl` / `joinNl` lemmas -/

theorem splitNl_ne_nil (s : Str) : splitNl s ≠ [] := by
  induction s with
  | nil => simp [splitNl]
  | cons c cs ih =>
    by_cases hc : (c == '\n') = true
    · simp [splitNl, hc]
    · simp only [splitNl, hc, Bool.false_eq_true, if_false]
      rcases he : splitNl cs with _ | ⟨l, ls⟩
      · exact absurd he ih
      · simp

theorem splitNl_cons_nl (cs : Str) : splitNl ('\n' :: cs) = [] :: splitNl cs := by
  simp [splitNl]

theorem splitNl_cons_other {c : Char} {cs l : Str} {ls : List Str} (h : (c == '\n') = false)
    (he : splitNl cs = l :: ls) : splitNl (c :: cs) = (c :: l) :: ls := by
  simp [splitNl, h, he]

theorem splitNl_append_cons (a z : Str) :
    splitNl (a ++ '\n' :: z) = splitNl a ++ splitNl z := by
  induction a with
  | nil => simp [splitNl]
  | cons c a' ih =>
    by_cases hc : (c == '\n') = true
    · have hc' : c = '\n' := by simpa using hc
      subst hc'
      rw [List.cons_append, splitNl_cons_nl, splitNl_cons_nl, ih, List.cons_append]
    · rcases he : splitNl a' with _ | ⟨l, ls⟩
      · exact absurd he (splitNl_ne_nil a')
      · have he2 : splitNl (a' ++ '\n' :: z) = l :: (ls ++ splitNl z) := by
          rw [ih, he, List.cons_append]
        rw [List.cons_append, splitNl_cons_other (by simpa using hc) he2,
          splitNl_cons_other (by simpa using hc) he, List.cons_append]

theorem splitNl_no_nl {s : Str} (h : '\n' ∉ s) : splitNl s = [s] := by
  induction s with
  | nil => rfl
  | cons c cs ih =>
    have hc : (c == '\n') = false := by
      simp only [beq_eq_false_iff_ne, ne_eq]
      intro hcc; exact h (hcc ▸ List.mem_cons_self c cs)
    exact splitNl_cons_other hc (ih (fun hm => h (List.mem_cons_of_mem c hm)))

theorem no_nl_of_mem_splitNl {s l : Str} (hl : l ∈ splitNl s) : '\n' ∉ l := by
  induction s generalizing l with
  | nil =>
    simp only [splitNl, List.mem_singleton] at hl
    subst hl; simp
  | cons c cs ih =>
    by_cases hc : (c == '\n') = true
    · have hc' : c = '\n' := by simpa using hc
      subst hc'
      rw [splitNl_cons_nl] at hl
      rcases List.mem_cons.mp hl with rfl | hm
      · simp
      · exact ih hm
    · rcases he : splitNl cs with _ | ⟨m, ms⟩
      · exact absurd he (splitNl_ne_nil cs)
      · rw [splitNl_cons_other (by simpa using hc) he] at hl
        rcases List.mem_cons.mp hl with rfl | hm
        · intro hnl
          rcases List.mem_cons.mp hnl with heq | hm'
          · rw [heq] at hc; simp at hc
          · exact ih (he ▸ List.mem_cons_self m ms) hm'
        · exact ih (he ▸ List.mem_cons_of_mem m hm)

theorem joinNl_cons_of_ne_nil (l : Str) {L : List Str} (hL : L ≠ []) :
    joinNl (l :: L) = l ++ '\n' :: joinNl L := by
  cases L with
  | nil => exact absurd rfl hL
  | cons m ls => rfl

theorem joinNl_splitNl (s : Str) : joinNl (splitNl s) = s := by
  induction s with
  | nil => rfl
  | cons c cs ih =>
    by_cases hc : (c == '\n') = true
    · have hc' : c = '\n' := by simpa using hc
      subst hc'
      rw [splitNl_cons_nl, joinNl_cons_of_ne_nil _ (splitNl_ne_nil cs), ih, List.nil_append]
    · rcases he : splitNl cs with _ | ⟨l, ls⟩
      · exact absurd he (splitNl_ne_nil cs)
      · rw [he] at ih
        rw [splitNl_cons_other (by simpa using hc) he]
        cases ls with
        | nil => simpa [joinNl] using congrArg (c :: ·) ih
        | cons m ls' =>
          have hL : (m :: ls' : List Str) ≠ [] := by simp
          rw [joinNl_cons_of_ne_nil _ hL] at ih
          rw [joinNl_cons_of_ne_nil _ hL, ← ih]
          simp

theorem splitNl_joinNl : ∀ {L : List Str}, L ≠ [] →
    splitNl (joinNl L) = (L.map splitNl).flatten
  | [], h => absurd rfl h
  | [a], _ => by simp [joinNl]
  | a :: b :: L', _ => by
    rw [joinNl_cons_of_ne_nil _ (by simp), splitNl_append_cons,
      splitNl_joinNl (by simp : b :: L' ≠ [])]
    simp

/-- If `s` is non-empty and does not end with a newline, the last piece of
`splitNl s` is non-empty. -/
theorem getLast?_splitNl_eq_nil {s : Str} (h : (splitNl s).getLast? = some []) :
    s = [] ∨ s.getLast? = some '\n' := by
  induction s with
  | nil => exact Or.inl rfl
  | cons c cs ih =>
    by_cases hc : (c == '\n') = true
    · have hc' : c = '\n' := by simpa using hc
      subst hc'
      rw [splitNl_cons_nl] at h
      rcases he : splitNl cs with _ | ⟨l, ls⟩
      · exact absurd he (splitNl_ne_nil cs)
      · rw [he, List.getLast?_cons_cons] at h
        rcases ih (by rw [he]; exact h) with rfl | hlast
        · exact Or.inr rfl
        · refine Or.inr ?_
          cases cs with
          | nil => simp at hlast
          | cons d ds => rw [List.getLast?_cons_cons]; exact hlast
    · rcases he : splitNl cs with _ | ⟨l, ls⟩
      · exact absurd he (splitNl_ne_nil cs)
      · rw [splitNl_cons_other (by simpa using hc) he] at h
        cases ls with
        | nil => simp at h
        | cons m ls' =>
          rw [List.getLast?_cons_cons] at h
          have h' : (splitNl cs).getLast? = some [] := by
            rw [he, List.getLast?_cons_cons]
            exact h
          rcases ih h' with rfl | hlast
          · simp [splitNl] at he
          · refine Or.inr ?_
            cases cs with
            | nil => simp at hlast
            | cons d ds => rw [List.getLast?_cons_cons]; exact hlast

/-! ## `takeWhile`/`dropWhile` over concatenations -/

theorem takeWhile_append_of_all {α : Type} (p : α → Bool) {A : List α}
    (h : ∀ a ∈ A, p a = true) (r : List α) :
    (A ++ r).takeWhile p = A ++ r.takeWhile p := by
  induction A with
  | nil => simp
  | cons a A ih =>
    rw [List.cons_append, List.takeWhile_cons_of_pos (h a (List.mem_cons_self a A)),
      ih (fun x hx => h x (List.mem_cons_of_mem a hx)), List.cons_append]

theorem dropWhile_append_of_all {α : Type} (p : α → Bool) {A : List α}
    (h : ∀ a ∈ A, p a = true) (r : List α) :
    (A ++ r).dropWhile p = r.dropWhile p := by
  induction A with
  | nil => simp
  | cons a A ih =>
    rw [List.cons_append, List.dropWhile_cons_of_pos (h a (List.mem_cons_self a A)),
      ih (fun x hx => h x (List.mem_cons_of_mem a hx))]

/-! ## `splitWs` lemmas -/

theorem splitWs_nil : splitWs [] = [[]] := rfl

theorem splitWs_cons_ws_nws {c d : Char} (hc : isWs c = true) (hd : isWs d = false)
    (cs : Str) : splitWs (c :: d :: cs) = [] :: splitWs (d :: cs) := by
  simp [splitWs, hc, hd]

theorem splitWs_cons_nws {c : Char} {cs l : Str} {ls : List Str} (h : isWs c = false)
    (he : splitWs cs = l :: ls) : splitWs (c :: cs) = (c :: l) :: ls := by
  simp [splitWs, h, he]

/-- A non-empty all-non-whitespace string is a single `splitWs` piece. -/
theorem splitWs_no_ws : ∀ {b : Str}, b ≠ [] → (∀ c ∈ b, isWs c = false) →
    splitWs b = [b]
  | [], h, _ => absurd rfl h
  | [c], _, hall => by
    rw [splitWs_cons_nws (hall c (by simp)) splitWs_nil]
  | c :: d :: b', _, hall => by
    rw [splitWs_cons_nws (hall c (by simp))
      (splitWs_no_ws (by simp) (fun x hx => hall x (List.mem_cons_of_mem c hx)))]

/-- `splitWs` of `"<a> <b>"` for non-empty whitespace-free `a`, `b`. -/
theorem splitWs_sandwich {b : Str} (hb : b ≠ []) (hball : ∀ c ∈ b, isWs c = false) :
    ∀ {a : Str}, a ≠ [] → (∀ c ∈ a, isWs c = false) →
    splitWs (a ++ ' ' :: b) = [a, b]
  | [], h, _ => absurd rfl h
  | [c], _, hall => by
    have hsp : splitWs (' ' :: b) = [] :: splitWs b := by
      cases b with
      | nil => exact absurd rfl hb
      | cons d b' => exact splitWs_cons_ws_nws (by decide) (hball d (by simp)) b'
    rw [List.cons_append, List.nil_append,
      splitWs_cons_nws (hall c (by simp)) (by rw [hsp, splitWs_no_ws hb hball])]
  | c :: d :: a', _, hall => by
    rw [List.cons_append,
      splitWs_cons_nws (hall c (by simp))
        (splitWs_sandwich hb hball (by simp) (fun x hx => hall x (List.mem_cons_of_mem c hx)))]

/-- Every character of every `splitWs` piece is non-whitespace. -/
theorem mem_splitWs_not_ws : ∀ (s : Str), ∀ p ∈ splitWs s, ∀ c ∈ p, isWs c = false := by
  intro s
  induction s with
  | nil =>
    intro p hp c hc
    rw [splitWs_nil] at hp
    simp only [List.mem_singleton] at hp
    subst hp
    exact absurd hc (List.not_mem_nil c)
  | cons d cs ih =>
    intro p hp c hc
    by_cases hd : isWs d = true
    · cases cs with
      | nil =>
        rw [show splitWs [d] = [[], []] by simp [splitWs, hd]] at hp
        rcases List.mem_cons.mp hp with rfl | hp'
        · exact absurd hc (List.not_mem_nil c)
        · simp only [List.mem_singleton] at hp'
          subst hp'
          exact absurd hc (List.not_mem_nil c)
      | cons e cs' =>
        by_cases he : isWs e = true
        · rw [show splitWs (d :: e :: cs') = splitWs (e :: cs') by simp [splitWs, hd, he]]
            at hp
          exact ih p hp c hc
        · rw [splitWs_cons_ws_nws hd (by simpa using he) cs'] at hp
          rcases List.mem_cons.mp hp with rfl | hp'
          · exact absurd hc (List.not_mem_nil c)
          · exact ih p hp' c hc
    · have hd' : isWs d = false := by simpa using hd
      rcases hsp : splitWs cs with _ | ⟨l, ls⟩
      · simp only [splitWs, hd', Bool.false_eq_true, if_false, hsp] at hp
        simp only [List.mem_singleton] at hp
        subst hp
        rcases List.mem_cons.mp hc with rfl | hc'
        · exact hd'
        · exact absurd hc' (List.not_mem_nil c)
      · rw [splitWs_cons_nws hd' hsp] at hp
        rcases List.mem_cons.mp hp with rfl | hp'
        · rcases List.mem_cons.mp hc with rfl | hc'
          · exact hd'
          · exact ih l (hsp ▸ List.mem_cons_self l ls) c hc'
        · exact ih p (hsp ▸ List.mem_cons_of_mem l hp') c hc

/-! ## The invariant satisfied by every parsed document -/

/-- Invariant of a header produced by the header loop: key and value are
trimmed, the key contains no colon, neither contains a newline, the key does
not start with `"HTTP"`, `'{'` or `'['`. -/
def wfHeader (h : Header) : Prop :=
  trim h.key = h.key ∧ trim h.value = h.value ∧ ':' ∉ h.key ∧
  '\n' ∉ h.key ∧ '\n' ∉ h.value ∧
  hasPrefix h.key httpPre = false ∧
  (∀ c, h.key.head? = some c → c ≠ '{' ∧ c ≠ '[')

/-- Invariant of a parsed body: no line starts (after trimming) with `"HTTP"`,
and the last line is not blank (trailing blank lines were stripped). -/
def wfBody (b : Str) : Prop :=
  (∀ l ∈ splitNl b, isHttpLine l = false) ∧
  (b = [] ∨ ∃ l, (splitNl b).getLast? = some l ∧ trim l ≠ [])

/-- Invariant of a capture/assert line: trimmed, newline-free, not a marker. -/
def wfSection (c : Str) : Prop :=
  trim c = c ∧ '\n' ∉ c ∧ c ≠ capMark ∧ c ≠ assMark

/-- The well-formedness invariant of documents in the range of `parseHurl`. -/
def WF (r : HurlRequest) : Prop :=
  r.method ≠ [] ∧ ' ' ∉ r.method ∧ '\n' ∉ r.method ∧ toUpper r.method = r.method ∧
  headNotWs r.method ∧ (r.url = [] → trim r.method = r.method) ∧
  trim r.url = r.url ∧ '\n' ∉ r.url ∧
  (∀ h ∈ r.headers, wfHeader h) ∧
  wfBody r.body ∧
  (∀ c ∈ r.responseStatus, isWs c = false) ∧
  (∀ c ∈ r.captures, wfSection c) ∧
  (∀ c ∈ r.asserts, wfSection c)

/-! ## Re-parsing a serialized document: per-phase lemmas -/

/-- Re-parsing the serialized request line recovers method and url. -/
theorem parseFirstLine_roundtrip {m u : Str} (hmne : m ≠ []) (hmsp : ' ' ∉ m)
    (hmu : toUpper m = m) (hmhead : headNotWs m) (hmtr : u = [] → trim m = m)
    (hu : trim u = u) : parseFirstLine (m ++ ' ' :: u) = (m, u) := by
  by_cases hune : u = []
  · subst hune
    unfold parseFirstLine
    rw [show (m ++ ' ' :: [] : Str) = m ++ [' '] from rfl, trim_method_space (hmtr rfl)]
    rw [if_neg hmne, splitFirst_eq_none hmsp, hmu]
  · unfold parseFirstLine
    rw [trim_method_space_url hmhead hmne hu hune]
    rw [if_neg (by simp), splitFirst_append hmsp]
    simp only [hmu, hu]

theorem hasPrefix_cons_single (c d : Char) (s : Str) : hasPrefix (c :: s) [d] = (c == d) := by
  simp [hasPrefix]

/-- A serialized header line passes none of the loop's stop conditions. -/
theorem guards_false {k z : Str}
    (hkg : ∀ c, k.head? = some c → c ≠ '{' ∧ c ≠ '[') :
    (hasPrefix (k ++ ':' :: z) ['{'] || hasPrefix (k ++ ':' :: z) ['[']) = false := by
  cases k with
  | nil => rfl
  | cons c k' =>
    rw [List.cons_append, hasPrefix_cons_single, hasPrefix_cons_single]
    obtain ⟨h1, h2⟩ := hkg c rfl
    simp [h1, h2]

/-- The header loop turns one serialized header line back into its header. -/
theorem parseHeaders_cons_header {k v : Str} (hk : trim k = k) (hv : trim v = v)
    (hkc : ':' ∉ k) (hkh : hasPrefix k httpPre = false)
    (hkg : ∀ c, k.head? = some c → c ≠ '{' ∧ c ≠ '[') (ls : List Str) :
    parseHeaders (hline ⟨k, v⟩ :: ls) =
      (⟨k, v⟩ :: (parseHeaders ls).1, (parseHeaders ls).2) := by
  have ht : trim (hline ⟨k, v⟩) = k ++ ':' :: (if v = [] then [] else ' ' :: v) :=
    trim_hline hk hv
  have hzv : trim (if v = [] then [] else ' ' :: v) = v := by
    by_cases hvne : v = []
    · rw [if_pos hvne, hvne]; rfl
    · rw [if_neg hvne]; exact trim_sp_cons hv hvne
  simp only [parseHeaders, ht]
  rw [hasPrefix_http_colon hkh, guards_false hkg, splitFirst_append hkc]
  simp [hk, hzv]

theorem parseHeaders_nil : parseHeaders [] = ([], []) := rfl

theorem parseHeaders_blank_cons (ls : List Str) : parseHeaders ([] :: ls) = ([], ls) := rfl

theorem parseHeaders_hlines {hs : List Header} (hwf : ∀ h ∈ hs, wfHeader h)
    (ls : List Str) :
    parseHeaders (hs.map hline ++ ls) = (hs ++ (parseHeaders ls).1, (parseHeaders ls).2) := by
  induction hs with
  | nil => simp
  | cons h hs ih =>
    obtain ⟨hk, hv, hkc, _, _, hkh, hkg⟩ := hwf h (List.mem_cons_self h hs)
    rw [List.map_cons, List.cons_append,
      parseHeaders_cons_header hk hv hkc hkh hkg,
      ih (fun x hx => hwf x (List.mem_cons_of_mem h hx))]
    simp

/-! ## Body, status and section phases -/

theorem isHttpLine_nil : isHttpLine [] = false := rfl

theorem mem_of_getLast?_eq_some {α : Type} {l : List α} {x : α}
    (h : l.getLast? = some x) : x ∈ l := by
  obtain ⟨hne, hx⟩ := List.mem_getLast?_eq_getLast (show x ∈ l.getLast? from by
    rw [Option.mem_def]; exact h)
  rw [hx]
  exact List.getLast_mem hne

theorem trim_all_not_ws {s : Str} (h : ∀ c ∈ s, isWs c = false) : trim s = s := by
  refine trim_eq_self_of (fun c hc => h c ?_) (fun c hc => h c ?_)
  · cases s with
    | nil => exact Option.noConfusion hc
    | cons a s' =>
      simp only [List.head?_cons, Option.some.injEq] at hc
      exact hc ▸ List.mem_cons_self a s'
  · exact mem_of_getLast?_eq_some hc

theorem trim_eq_nil_of_all_ws {s : Str} (h : ∀ c ∈ s, isWs c = true) : trim s = [] := by
  have : trimRight s = [] := List.rdropWhile_eq_nil_iff.mpr (by simpa using h)
  show trimLeft (trimRight s) = []
  rw [this]; rfl

theorem mem_joinNl {L : List Str} {l : Str} {c : Char} (hl : l ∈ L) (hc : c ∈ l) :
    c ∈ joinNl L := by
  induction L with
  | nil => exact absurd hl (List.not_mem_nil l)
  | cons m L' ih =>
    cases L' with
    | nil =>
      simp only [List.mem_singleton] at hl
      subst hl
      exact hc
    | cons m2 L'' =>
      rw [joinNl_cons_of_ne_nil _ (by simp)]
      rcases List.mem_cons.mp hl with rfl | hm
      · exact List.mem_append_left _ hc
      · exact List.mem_append_right _ (List.mem_cons_of_mem _ (ih hm))

/-- Under the body invariant, `trim body = []` exactly when `body = []`. -/
theorem wfBody_trim_iff {b : Str} (h : wfBody b) : trim b = [] ↔ b = [] := by
  constructor
  · intro htr
    by_contra hne
    rcases h.2 with rfl | ⟨l, hl, hltr⟩
    · exact hne rfl
    · have hlmem : l ∈ splitNl b := mem_of_getLast?_eq_some hl
      by_cases hall : ∀ c ∈ l, isWs c = true
      · exact hltr (trim_eq_nil_of_all_ws hall)
      · push_neg at hall
        obtain ⟨c, hcl, hcw⟩ := hall
        have : c ∈ b := by
          have := mem_joinNl hlmem hcl
          rwa [joinNl_splitNl] at this
        exact trim_ne_nil_of_mem this (by simpa using hcw) htr
  · intro hb; rw [hb]; rfl

/-- The `HTTP` status line starts with `HTTP` even after trimming. -/
theorem isHttpLine_status {st : Str} (hstne : st ≠ [])
    (hst : ∀ c ∈ st, isWs c = false) : isHttpLine (httpPre ++ ' ' :: st) = true := by
  unfold isHttpLine
  rw [trim_method_space_url (fun c hc => by cases hc; rfl) (by decide)
    (trim_all_not_ws hst) hstne]
  exact hasPrefix_append httpPre (' ' :: st)

theorem statusOf_httpline {st : Str} (hstne : st ≠ [])
    (hst : ∀ c ∈ st, isWs c = false) : statusOf (httpPre ++ ' ' :: st) = st := by
  unfold statusOf
  rw [trim_method_space_url (fun c hc => by cases hc; rfl) (by decide)
    (trim_all_not_ws hst) hstne]
  rw [splitWs_sandwich hstne hst (by decide) (by decide)]

theorem dropTrailingBlanks_concat_blank {x : Str} (hx : trim x = []) (ls : List Str) :
    dropTrailingBlanks (ls ++ [x]) = dropTrailingBlanks ls :=
  List.rdropWhile_concat_pos _ _ _ (by simp [hx])

theorem dropTrailingBlanks_eq_self {ls : List Str}
    (h : ∀ hne : ls ≠ [], trim (ls.getLast hne) ≠ []) : dropTrailingBlanks ls = ls :=
  List.rdropWhile_eq_self_iff.mpr (by simpa using h)

theorem dropTrailingBlanks_nil : dropTrailingBlanks [] = [] := rfl

/-- Section lines (trimmed, not markers) are pushed onto the captures list. -/
theorem parseSections_caps_append {cs : List Str} (hwf : ∀ c ∈ cs, wfSection c)
    (r : List Str) :
    parseSections (cs ++ r) Sect.secCaps =
      (cs ++ (parseSections r Sect.secCaps).1, (parseSections r Sect.secCaps).2) := by
  induction cs with
  | nil => simp
  | cons c cs ih =>
    obtain ⟨hc1, _, hc3, hc4⟩ := hwf c (List.mem_cons_self c cs)
    rw [List.cons_append]
    simp only [parseSections, hc1, if_neg hc3, if_neg hc4]
    rw [ih (fun x hx => hwf x (List.mem_cons_of_mem c hx))]
    simp

theorem parseSections_asserts_append {cs : List Str} (hwf : ∀ c ∈ cs, wfSection c)
    (r : List Str) :
    parseSections (cs ++ r) Sect.secAsserts =
      ((parseSections r Sect.secAsserts).1, cs ++ (parseSections r Sect.secAsserts).2) := by
  induction cs with
  | nil => simp
  | cons c cs ih =>
    obtain ⟨hc1, _, hc3, hc4⟩ := hwf c (List.mem_cons_self c cs)
    rw [List.cons_append]
    simp only [parseSections, hc1, if_neg hc3, if_neg hc4]
    rw [ih (fun x hx => hwf x (List.mem_cons_of_mem c hx))]
    simp

theorem parseSections_nil (sec : Sect) : parseSections [] sec = ([], []) := rfl

/-- The serialized `[Captures]`/`[Asserts]` block parses back to the two lists. -/
theorem parseSections_marks {caps asserts : List Str}
    (hc : ∀ c ∈ caps, wfSection c) (ha : ∀ c ∈ asserts, wfSection c) :
    parseSections ((if caps = [] then [] else capMark :: caps)
      ++ (if asserts = [] then [] else assMark :: asserts)) Sect.secNone =
      (caps, asserts) := by
  have hcm : trim capMark = capMark := by decide
  have ham : trim assMark = assMark := by decide
  have hne : capMark ≠ assMark := by decide
  have hane : assMark ≠ capMark := by decide
  by_cases h1 : caps = []
  · by_cases h2 : asserts = []
    · simp [h1, h2, parseSections_nil]
    · rw [if_pos h1, if_neg h2, List.nil_append]
      simp only [parseSections, ham, if_neg hane, if_pos rfl]
      rw [show asserts = asserts ++ [] by simp, parseSections_asserts_append ha []]
      simp [h1, parseSections_nil]
  · by_cases h2 : asserts = []
    · rw [if_neg h1, if_pos h2, List.append_nil]
      simp only [parseSections, hcm, if_pos rfl]
      rw [show caps = caps ++ [] by simp, parseSections_caps_append hc []]
      simp [h2, parseSections_nil]
    · rw [if_neg h1, if_neg h2, show (capMark :: caps) ++ (assMark :: asserts)
        = capMark :: (caps ++ assMark :: asserts) by simp]
      simp only [parseSections, hcm, if_pos rfl]
      rw [parseSections_caps_append hc (assMark :: asserts)]
      simp only [parseSections, ham, if_neg hane, if_pos rfl]
      rw [show asserts = asserts ++ [] by simp, parseSections_asserts_append ha []]
      simp [parseSections_nil]

/-! ## The line structure of a serialized document -/

theorem flatten_map_splitNl {A : List Str} (h : ∀ l ∈ A, '\n' ∉ l) :
    (A.map splitNl).flatten = A := by
  induction A with
  | nil => rfl
  | cons a A ih =>
    rw [List.map_cons, List.flatten_cons, splitNl_no_nl (h a (List.mem_cons_self a A)),
      ih (fun l hl => h l (List.mem_cons_of_mem a hl))]
    rfl

theorem no_nl_first {r : HurlRequest} (hm : '\n' ∉ r.method) (hu : '\n' ∉ r.url) :
    '\n' ∉ r.method ++ ' ' :: r.url := by
  intro hmem
  rcases List.mem_append.mp hmem with h | h
  · exact hm h
  · rcases List.mem_cons.mp h with h' | h'
    · exact absurd h' (by decide)
    · exact hu h'

theorem no_nl_hline {h : Header} (hw : wfHeader h) : '\n' ∉ hline h := by
  obtain ⟨_, _, _, hk, hv, _, _⟩ := hw
  intro hmem
  rcases List.mem_append.mp hmem with h' | h'
  · exact hk h'
  · rcases List.mem_cons.mp h' with h'' | h''
    · exact absurd h'' (by decide)
    · rcases List.mem_cons.mp h'' with h3 | h3
      · exact absurd h3 (by decide)
      · exact hv h3

theorem no_nl_status_line {st : Str} (hst : ∀ c ∈ st, isWs c = false) :
    '\n' ∉ httpPre ++ ' ' :: (if st = [] then ['*'] else st) := by
  intro hmem
  rcases List.mem_append.mp hmem with h | h
  · exact absurd h (by decide)
  · rcases List.mem_cons.mp h with h' | h'
    · exact absurd h' (by decide)
    · by_cases hstne : st = []
      · rw [if_pos hstne] at h'
        exact absurd h' (by decide)
      · rw [if_neg hstne] at h'
        have := hst '\n' h'
        simp [isWs] at this

/-- A serialized section block (`marker` line plus its entries) is newline-free. -/
theorem no_nl_mark_part (mark : Str) (hmark : '\n' ∉ mark) {cs : List Str}
    (hc : ∀ c ∈ cs, wfSection c) :
    ∀ l ∈ (if cs = [] then [] else mark :: cs), '\n' ∉ l := by
  intro l hl
  by_cases h1 : cs = []
  · rw [if_pos h1] at hl; exact absurd hl (List.not_mem_nil l)
  · rw [if_neg h1] at hl
    rcases List.mem_cons.mp hl with rfl | h'
    · exact hmark
    · exact (hc l h').2.1

/-- Splitting a serialized document into lines. -/
theorem splitNl_serialize {r : HurlRequest} (h : WF r) :
    splitNl (serializeHurl r) =
      (r.method ++ ' ' :: r.url) :: (r.headers.map hline
        ++ (if r.body = [] then [] else ([] : Str) :: splitNl r.body)
        ++ (if r.responseStatus ≠ [] ∨ r.captures ≠ [] ∨ r.asserts ≠ [] then
              ([] : Str) :: (httpPre ++ ' ' ::
                  (if r.responseStatus = [] then ['*'] else r.responseStatus))
                :: ((if r.captures = [] then [] else capMark :: r.captures)
                    ++ (if r.asserts = [] then [] else assMark :: r.asserts))
            else [])
        ++ [[]]) := by
  obtain ⟨hm1, hm2, hm3, hm4, hm5, hm6, hu1, hu2, hhs, hbody, hstat, hcaps, hass⟩ := h
  have hHnl : ∀ l ∈ r.headers.map hline, '\n' ∉ l := by
    intro l hl
    obtain ⟨a, ha, rfl⟩ := List.mem_map.mp hl
    exact no_nl_hline (hhs a ha)
  have hfirst := no_nl_first hm3 hu2
  have hCnl := no_nl_mark_part capMark (by decide) hcaps
  have hAnl := no_nl_mark_part assMark (by decide) hass
  have hst := no_nl_status_line hstat
  unfold serializeHurl serializeLines
  by_cases hb : r.body = [] <;>
    by_cases hresp : r.responseStatus ≠ [] ∨ r.captures ≠ [] ∨ r.asserts ≠ []
  · rw [if_pos hb, if_pos ((wfBody_trim_iff hbody).mpr hb), if_pos hresp]
    rw [splitNl_joinNl (by simp)]
    simp only [List.map_append, List.flatten_append, List.map_cons, List.flatten_cons,
      List.map_nil, List.flatten_nil, List.append_nil, List.nil_append]
    rw [splitNl_no_nl hfirst, flatten_map_splitNl hHnl,
      splitNl_no_nl (by simp : '\n' ∉ ([] : Str)), splitNl_no_nl hst,
      flatten_map_splitNl hCnl, flatten_map_splitNl hAnl]
    simp
  · rw [if_pos hb, if_pos ((wfBody_trim_iff hbody).mpr hb), if_neg hresp]
    rw [splitNl_joinNl (by simp)]
    simp only [List.map_append, List.flatten_append, List.map_cons, List.flatten_cons,
      List.map_nil, List.flatten_nil, List.append_nil, List.nil_append]
    rw [splitNl_no_nl hfirst, flatten_map_splitNl hHnl,
      splitNl_no_nl (by simp : '\n' ∉ ([] : Str))]
    simp
  · rw [if_neg hb, if_neg (fun hc => hb ((wfBody_trim_iff hbody).mp hc)),
      if_pos hresp]
    rw [splitNl_joinNl (by simp)]
    simp only [List.map_append, List.flatten_append, List.map_cons, List.flatten_cons,
      List.map_nil, List.flatten_nil, List.append_nil, List.nil_append]
    rw [splitNl_no_nl hfirst, flatten_map_splitNl hHnl,
      splitNl_no_nl (by simp : '\n' ∉ ([] : Str)), splitNl_no_nl hst,
      flatten_map_splitNl hCnl, flatten_map_splitNl hAnl]
    simp
  · rw [if_neg hb, if_neg (fun hc => hb ((wfBody_trim_iff hbody).mp hc)),
      if_neg hresp]
    rw [splitNl_joinNl (by simp)]
    simp only [List.map_append, List.flatten_append, List.map_cons, List.flatten_cons,
      List.map_nil, List.flatten_nil, List.append_nil, List.nil_append]
    rw [splitNl_no_nl hfirst, flatten_map_splitNl hHnl,
      splitNl_no_nl (by simp : '\n' ∉ ([] : Str))]
    simp

/-! ## The round-trip theorem on well-formed documents -/

theorem takeWhile_all {α : Type} (p : α → Bool) {A : List α} (h : ∀ a ∈ A, p a = true) :
    A.takeWhile p = A := by
  induction A with
  | nil => rfl
  | cons a A ih =>
    rw [List.takeWhile_cons_of_pos (h a (List.mem_cons_self a A)),
      ih (fun x hx => h x (List.mem_cons_of_mem a hx))]

theorem dropWhile_all {α : Type} (p : α → Bool) {A : List α} (h : ∀ a ∈ A, p a = true) :
    A.dropWhile p = [] :=
  List.dropWhile_eq_nil_iff.mpr h

/-- Evaluating `parseHurl` when the split lines end in one empty line. -/
theorem parseHurl_of_split {content first : Str} {mid : List Str}
    (hs : splitNl content = first :: (mid ++ [[]])) :
    parseHurl content = parseLines (first :: mid) := by
  unfold parseHurl
  rw [hs]
  have h1 : (first :: (mid ++ [[]])).getLast? = some ([] : Str) := by
    rw [show first :: (mid ++ [[]]) = (first :: mid) ++ [[]] by simp,
      List.getLast?_append_of_ne_nil _ (by simp)]
    rfl
  show parseLines (if (first :: (mid ++ [[]])).getLast? = some [] then
    (first :: (mid ++ [[]])).dropLast else first :: (mid ++ [[]])) = parseLines (first :: mid)
  rw [if_pos h1, show first :: (mid ++ [[]]) = (first :: mid) ++ [[]] by simp,
    List.dropLast_concat]

/-- Re-parsing a serialized well-formed document gives the document back, with
an empty `responseStatus` normalized to `"*"` when a captures or asserts
section forced the `HTTP` line to be emitted. -/
theorem parse_serialize_of_wf {r : HurlRequest} (h : WF r) :
    parseHurl (serializeHurl r) = normStatus r := by
  have hs := splitNl_serialize h
  obtain ⟨meth, url, hdrs, bod, stat, caps, asserts⟩ := r
  obtain ⟨hm1, hm2, hm3, hm4, hm5, hm6, hu1, hu2, hhs, hbody, hstat, hcaps, hass⟩ := h
  simp only at hs hm1 hm2 hm3 hm4 hm5 hm6 hu1 hu2 hhs hbody hstat hcaps hass
  have hstne : (if stat = [] then ['*'] else stat) ≠ [] := by
    by_cases hq : stat = []
    · rw [if_pos hq]; simp
    · rw [if_neg hq]; exact hq
  have hstws : ∀ c ∈ (if stat = [] then ['*'] else stat), isWs c = false := by
    by_cases hq : stat = []
    · rw [if_pos hq]; intro c hc; simp only [List.mem_singleton] at hc; subst hc; decide
    · rw [if_neg hq]; exact hstat
  have hhttp := isHttpLine_status hstne hstws
  have hstatusof := statusOf_httpline hstne hstws
  have hbodyok : ∀ l ∈ splitNl bod, (fun l => !isHttpLine l) l = true := by
    intro l hl
    have := hbody.1 l hl
    simp only at this
    show (!isHttpLine l) = true
    rw [this]
    rfl
  have hdtb : bod ≠ [] → dropTrailingBlanks (splitNl bod) = splitNl bod := by
    intro hbne
    refine dropTrailingBlanks_eq_self ?_
    intro hne
    rcases hbody.2 with hb0 | ⟨l, hl, hltr⟩
    · exact absurd hb0 hbne
    · rw [List.getLast?_eq_getLast_of_ne_nil hne] at hl
      simp only [Option.some.injEq] at hl
      rw [← hl] at hltr
      exact hltr
  by_cases hb : bod = [] <;>
    by_cases hresp : stat ≠ [] ∨ caps ≠ [] ∨ asserts ≠ []
  · -- empty body, response section present
    rw [if_pos hb, if_pos hresp] at hs
    have hsplit : splitNl (serializeHurl ⟨meth, url, hdrs, bod, stat, caps, asserts⟩) =
        (meth ++ ' ' :: url) :: ((List.map hline hdrs ++ ([] : Str) ::
          (httpPre ++ ' ' :: (if stat = [] then ['*'] else stat)) ::
          ((if caps = [] then [] else capMark :: caps) ++
           (if asserts = [] then [] else assMark :: asserts))) ++ [[]]) := by
      rw [hs]; simp
    rw [parseHurl_of_split hsplit]
    have e2 : parseHeaders (List.map hline hdrs ++ ([] : Str) ::
          (httpPre ++ ' ' :: (if stat = [] then ['*'] else stat)) ::
          ((if caps = [] then [] else capMark :: caps) ++
           (if asserts = [] then [] else assMark :: asserts)))
        = (hdrs, (httpPre ++ ' ' :: (if stat = [] then ['*'] else stat)) ::
          ((if caps = [] then [] else capMark :: caps) ++
           (if asserts = [] then [] else assMark :: asserts))) := by
      rw [parseHeaders_hlines hhs, parseHeaders_blank_cons]
      simp
    simp only [parseLines, e2]
    rw [parseFirstLine_roundtrip hm1 hm2 hm4 hm5 hm6 hu1]
    rw [List.takeWhile_cons_of_neg (by simp [hhttp]), List.dropWhile_cons_of_neg (by simp [hhttp])]
    simp only [hhttp, if_true, hstatusof]
    rw [parseSections_marks hcaps hass]
    simp only [normStatus]
    by_cases hq : stat = []
    · have hca : caps ≠ [] ∨ asserts ≠ [] := by
        rcases hresp with h1 | h2
        · exact absurd hq h1
        · exact h2
      rw [if_pos hq, if_pos (by exact ⟨hq, hca⟩)]
      simp [hb, dropTrailingBlanks_nil, joinNl]
    · rw [if_neg hq, if_neg (fun hcon => hq hcon.1)]
      simp [hb, dropTrailingBlanks_nil, joinNl]
  · -- empty body, no response section
    rw [if_pos hb, if_neg hresp] at hs
    have hsplit : splitNl (serializeHurl ⟨meth, url, hdrs, bod, stat, caps, asserts⟩) =
        (meth ++ ' ' :: url) :: (List.map hline hdrs ++ [[]]) := by
      rw [hs]; simp
    rw [parseHurl_of_split hsplit]
    have e2 : parseHeaders (List.map hline hdrs) = (hdrs, []) := by
      have := parseHeaders_hlines hhs []
      rw [List.append_nil] at this
      rw [this]
      simp [parseHeaders_nil]
    simp only [parseLines, e2]
    rw [parseFirstLine_roundtrip hm1 hm2 hm4 hm5 hm6 hu1]
    push_neg at hresp
    simp [normStatus, hresp.1, hresp.2.1, hresp.2.2, hb, dropTrailingBlanks_nil, joinNl,
      parseSections_nil]
  · -- non-empty body, response section present
    rw [if_neg hb, if_pos hresp] at hs
    have hsplit : splitNl (serializeHurl ⟨meth, url, hdrs, bod, stat, caps, asserts⟩) =
        (meth ++ ' ' :: url) :: ((List.map hline hdrs ++ ([] : Str) ::
          (splitNl bod ++ ([] : Str) ::
            (httpPre ++ ' ' :: (if stat = [] then ['*'] else stat)) ::
            ((if caps = [] then [] else capMark :: caps) ++
             (if asserts = [] then [] else assMark :: asserts)))) ++ [[]]) := by
      rw [hs]; simp
    rw [parseHurl_of_split hsplit]
    have e2 : parseHeaders (List.map hline hdrs ++ ([] : Str) ::
          (splitNl bod ++ ([] : Str) ::
            (httpPre ++ ' ' :: (if stat = [] then ['*'] else stat)) ::
            ((if caps = [] then [] else capMark :: caps) ++
             (if asserts = [] then [] else assMark :: asserts))))
        = (hdrs, splitNl bod ++ ([] : Str) ::
            (httpPre ++ ' ' :: (if stat = [] then ['*'] else stat)) ::
            ((if caps = [] then [] else capMark :: caps) ++
             (if asserts = [] then [] else assMark :: asserts))) := by
      rw [parseHeaders_hlines hhs, parseHeaders_blank_cons]
      simp
    simp only [parseLines, e2]
    rw [parseFirstLine_roundtrip hm1 hm2 hm4 hm5 hm6 hu1]
    have hA : ∀ l ∈ splitNl bod ++ [([] : Str)], (fun l => !isHttpLine l) l = true := by
      intro l hl
      rcases List.mem_append.mp hl with h1 | h1
      · exact hbodyok l h1
      · simp only [List.mem_singleton] at h1
        subst h1
        rfl
    have hshape : (splitNl bod ++ ([] : Str) ::
            (httpPre ++ ' ' :: (if stat = [] then ['*'] else stat)) ::
            ((if caps = [] then [] else capMark :: caps) ++
             (if asserts = [] then [] else assMark :: asserts)))
        = (splitNl bod ++ [([] : Str)]) ++
            ((httpPre ++ ' ' :: (if stat = [] then ['*'] else stat)) ::
            ((if caps = [] then [] else capMark :: caps) ++
             (if asserts = [] then [] else assMark :: asserts))) := by simp
    rw [hshape, takeWhile_append_of_all _ hA, dropWhile_append_of_all _ hA,
      List.takeWhile_cons_of_neg (by simp [hhttp]), List.dropWhile_cons_of_neg (by simp [hhttp]),
      List.append_nil]
    rw [dropTrailingBlanks_concat_blank trim_nil, hdtb hb, joinNl_splitNl]
    simp only [hhttp, if_true, hstatusof]
    rw [parseSections_marks hcaps hass]
    simp only [normStatus]
    by_cases hq : stat = []
    · have hca : caps ≠ [] ∨ asserts ≠ [] := by
        rcases hresp with h1 | h2
        · exact absurd hq h1
        · exact h2
      rw [if_pos hq, if_pos (by exact ⟨hq, hca⟩)]
    · rw [if_neg hq, if_neg (fun hcon => hq hcon.1)]
  · -- non-empty body, no response section
    rw [if_neg hb, if_neg hresp] at hs
    have hsplit : splitNl (serializeHurl ⟨meth, url, hdrs, bod, stat, caps, asserts⟩) =
        (meth ++ ' ' :: url) :: ((List.map hline hdrs ++ ([] : Str) :: splitNl bod) ++ [[]]) := by
      rw [hs]; simp
    rw [parseHurl_of_split hsplit]
    have e2 : parseHeaders (List.map hline hdrs ++ ([] : Str) :: splitNl bod)
        = (hdrs, splitNl bod) := by
      rw [parseHeaders_hlines hhs, parseHeaders_blank_cons]
      simp
    simp only [parseLines, e2]
    rw [parseFirstLine_roundtrip hm1 hm2 hm4 hm5 hm6 hu1]
    rw [takeWhile_all _ hbodyok, dropWhile_all _ hbodyok, hdtb hb, joinNl_splitNl]
    push_neg at hresp
    simp [normStatus, hresp.1, hresp.2.1, hresp.2.2, parseSections_nil]

/-! ## Every parsed document is well-formed -/

theorem hasPrefix_iff_isPrefix {s p : Str} : hasPrefix s p = true ↔ p <+: s := by
  induction p generalizing s with
  | nil => simp [hasPrefix]
  | cons d p ih =>
    cases s with
    | nil =>
      simp only [hasPrefix]
      constructor
      · intro hc; exact Bool.noConfusion hc
      · intro hc
        obtain ⟨z, hz⟩ := hc
        exact List.noConfusion hz
    | cons c s =>
      simp only [hasPrefix, Bool.and_eq_true, beq_iff_eq]
      rw [ih]
      constructor
      · rintro ⟨rfl, z, rfl⟩
        exact ⟨z, rfl⟩
      · rintro ⟨z, hz⟩
        injection hz with h1 h2
        exact ⟨h1.symm, z, h2⟩

theorem head?_of_leading {α : Type} {s' s : List α} (h : s' <+: s) (hne : s' ≠ []) :
    s.head? = s'.head? := by
  obtain ⟨z, rfl⟩ := h
  cases s' with
  | nil => exact absurd rfl hne
  | cons a t => rfl

/-- When a string starts with a non-whitespace character, `trim` only removes
a suffix, so the result is a prefix. -/
theorem trim_prefix_of_headNotWs {s : Str} (h : headNotWs s) : trim s <+: s := by
  rcases htr : trimRight s with _ | ⟨c, t⟩
  · show trimLeft (trimRight s) <+: s
    rw [htr]
    exact List.nil_prefix
  · have hpre : trimRight s <+: s := List.rdropWhile_prefix _ _
    have hc : s.head? = some c := by
      rw [head?_of_leading hpre (by rw [htr]; simp), htr]
      rfl
    show trimLeft (trimRight s) <+: s
    rw [htr, trimLeft_cons_neg (h c hc)]
    exact htr ▸ hpre

theorem trim_toUpper {s : Str} (h : trim s = s) : trim (toUpper s) = toUpper s := by
  refine trim_eq_self_of ?_ ?_
  · intro c hc
    cases s with
    | nil => exact Option.noConfusion hc
    | cons a t =>
      simp only [toUpper, List.map_cons, List.head?_cons, Option.some.injEq] at hc
      subst hc
      rw [upChar_ws]
      exact headNotWs_of_trimmed h a rfl
  · intro c hc
    rw [show toUpper s = List.map upChar s from rfl, List.getLast?_map] at hc
    cases hg : s.getLast? with
    | none => rw [hg] at hc; exact Option.noConfusion hc
    | some d =>
      rw [hg] at hc
      simp only [Option.map_some', Option.some.injEq] at hc
      subst hc
      rw [upChar_ws]
      exact lastNotWs_of_trimmed h d hg

/-- The method/url pair produced from any (newline-free) request line
satisfies the invariant's method and url clauses. -/
theorem wf_parseFirstLine {l : Str} (hnl : '\n' ∉ l) :
    (parseFirstLine l).1 ≠ [] ∧ ' ' ∉ (parseFirstLine l).1 ∧ '\n' ∉ (parseFirstLine l).1 ∧
    toUpper (parseFirstLine l).1 = (parseFirstLine l).1 ∧ headNotWs (parseFirstLine l).1 ∧
    ((parseFirstLine l).2 = [] → trim (parseFirstLine l).1 = (parseFirstLine l).1) ∧
    trim (parseFirstLine l).2 = (parseFirstLine l).2 ∧ '\n' ∉ (parseFirstLine l).2 := by
  simp only [parseFirstLine]
  by_cases hf : trim l = []
  · rw [if_pos hf]
    refine ⟨by simp, by decide, by decide, by decide, ?_, fun _ => by decide, rfl, by simp⟩
    intro c hc
    simp only [List.head?_cons, Option.some.injEq] at hc
    subst hc
    decide
  · rw [if_neg hf]
    rcases hsp : splitFirst ' ' (trim l) with _ | ⟨m0, u0⟩
    · have hsp' := not_mem_of_splitFirst_eq_none hsp
      refine ⟨toUpper_ne_nil hf, ?_, ?_, toUpper_idem _, ?_, fun _ => trim_toUpper (trim_idem l),
        rfl, by simp⟩
      · exact fun hmem => hsp' (mem_toUpper_of_ws (by decide) hmem)
      · exact fun hmem => hnl (mem_of_mem_trim (mem_toUpper_of_ws (by decide) hmem))
      · intro c hc
        cases htl : trim l with
        | nil => exact absurd htl hf
        | cons a t =>
          rw [htl] at hc
          simp only [toUpper, List.map_cons, List.head?_cons, Option.some.injEq] at hc
          subst hc
          rw [upChar_ws]
          exact headNotWs_trim l a (by rw [htl]; rfl)
    · obtain ⟨hft, hm0sp⟩ := splitFirst_eq_some hsp
      have hm0ne : m0 ≠ [] := by
        intro h0
        subst h0
        rw [List.nil_append] at hft
        have := headNotWs_trim l ' ' (by rw [hft]; rfl)
        exact absurd this (by decide)
      have hm0f : m0 <+: trim l := ⟨' ' :: u0, hft.symm⟩
      have hu0ne : u0 ≠ [] := by
        intro h0
        subst h0
        have hlast : (trim l).getLast? = some ' ' := by
          rw [hft, show (m0 ++ [' '] : Str).getLast? = (' ' :: ([] : Str)).getLast? from
            List.getLast?_append_of_ne_nil m0 (by simp)]
          rfl
        have := lastNotWs_trim l ' ' hlast
        exact absurd this (by decide)
      have hu0inl : ∀ c ∈ u0, c ∈ trim l := by
        intro c hc
        rw [hft]
        exact List.mem_append_right m0 (List.mem_cons_of_mem ' ' hc)
      have htu0 : trim u0 ≠ [] := by
        have h1 : (trim l).getLast? = u0.getLast? := by
          rw [hft, show (m0 ++ ' ' :: u0 : Str) = (m0 ++ [' ']) ++ u0 by simp,
            List.getLast?_append_of_ne_nil _ hu0ne]
        have h2 := List.getLast?_eq_getLast_of_ne_nil hu0ne
        refine trim_ne_nil_of_mem (mem_of_getLast?_eq_some h2) ?_
        exact lastNotWs_trim l _ (by rw [h1, h2])
      refine ⟨toUpper_ne_nil hm0ne, ?_, ?_, toUpper_idem _, ?_, fun hcon => absurd hcon htu0,
        trim_idem u0, ?_⟩
      · exact fun hmem => hm0sp (mem_toUpper_of_ws (by decide) hmem)
      · intro hmem
        exact hnl (mem_of_mem_trim (hm0f.sublist.mem (mem_toUpper_of_ws (by decide) hmem)))
      · intro c hc
        cases m0 with
        | nil => exact absurd rfl hm0ne
        | cons a t =>
          simp only [toUpper, List.map_cons, List.head?_cons, Option.some.injEq] at hc
          subst hc
          rw [upChar_ws]
          exact headNotWs_trim l a (by rw [head?_of_leading hm0f hm0ne]; rfl)
      · intro hmem
        exact hnl (mem_of_mem_trim (hu0inl _ (mem_of_mem_trim hmem)))

/-- Headers produced by the header loop satisfy the header invariant, and the
remaining lines are a subset of the input lines. -/
theorem wf_parseHeaders : ∀ {ls : List Str}, (∀ l ∈ ls, '\n' ∉ l) →
    (∀ h ∈ (parseHeaders ls).1, wfHeader h) ∧ (∀ l ∈ (parseHeaders ls).2, '\n' ∉ l) := by
  intro ls
  induction ls with
  | nil => intro _; exact ⟨by simp [parseHeaders_nil], by simp [parseHeaders_nil]⟩
  | cons l ls ih =>
    intro hnl
    have hl := hnl l (List.mem_cons_self l ls)
    have hls : ∀ x ∈ ls, '\n' ∉ x := fun x hx => hnl x (List.mem_cons_of_mem l hx)
    by_cases ht : trim l = []
    · simp only [parseHeaders]
      rw [ht, if_pos rfl]
      exact ⟨by simp, hls⟩
    · by_cases hh : hasPrefix (trim l) httpPre = true
      · simp only [parseHeaders]
        rw [if_neg ht, if_pos hh]
        exact ⟨by simp, hnl⟩
      · rcases hsp : splitFirst ':' (trim l) with _ | ⟨k0, v0⟩
        · simp only [parseHeaders]
          rw [if_neg ht, if_neg hh, hsp]
          exact ⟨by simp, hnl⟩
        · obtain ⟨htsplit, hk0c⟩ := splitFirst_eq_some hsp
          have hk0pre : k0 <+: trim l := ⟨':' :: v0, htsplit.symm⟩
          by_cases hg : (hasPrefix (trim l) ['{'] || hasPrefix (trim l) ['[']) = true
          · simp only [parseHeaders]
            rw [if_neg ht, if_neg hh, hsp]
            simp only [hg, if_true]
            exact ⟨by simp, hnl⟩
          · simp only [parseHeaders]
            rw [if_neg ht, if_neg hh, hsp]
            simp only [Bool.not_eq_true] at hg
            simp only [hg, Bool.false_eq_true, if_false]
            have hheadk0 : headNotWs k0 := by
              intro c hc
              refine headNotWs_trim l c ?_
              rw [head?_of_leading hk0pre
                (by intro h0; rw [h0] at hc; exact Option.noConfusion hc)]
              exact hc
            have htk0pre : trim k0 <+: trim l := (trim_prefix_of_headNotWs hheadk0).trans hk0pre
            have hmemk0 : ∀ c ∈ trim k0, c ∈ l :=
              fun c hc => mem_of_mem_trim (htk0pre.sublist.mem hc)
            have hmemv0 : ∀ c ∈ trim v0, c ∈ l := by
              intro c hc
              refine mem_of_mem_trim (s := l) ?_
              rw [htsplit]
              exact List.mem_append_right k0 (List.mem_cons_of_mem ':' (mem_of_mem_trim hc))
            constructor
            · intro hd hmem
              rcases List.mem_cons.mp hmem with rfl | hmem'
              · refine ⟨trim_idem k0, trim_idem v0, ?_, ?_, ?_, ?_, ?_⟩
                · exact fun hc => hk0c (mem_of_mem_trim hc)
                · exact fun hc => hl (hmemk0 _ hc)
                · exact fun hc => hl (hmemv0 _ hc)
                · cases hq : hasPrefix (trim k0) httpPre
                  · rfl
                  · exact absurd (hasPrefix_iff_isPrefix.mpr
                      ((hasPrefix_iff_isPrefix.mp hq).trans htk0pre)) hh
                · intro c hc
                  have h1 : (trim l).head? = some c := by
                    rw [head?_of_leading htk0pre
                      (by intro h0; rw [h0] at hc; exact Option.noConfusion hc)]
                    exact hc
                  cases htl2 : trim l with
                  | nil => rw [htl2] at h1; exact Option.noConfusion h1
                  | cons a rest =>
                    rw [htl2] at h1 hg
                    simp only [List.head?_cons, Option.some.injEq] at h1
                    subst h1
                    rw [hasPrefix_cons_single, hasPrefix_cons_single] at hg
                    simp only [Bool.or_eq_false_iff, beq_eq_false_iff_ne, ne_eq] at hg
                    exact ⟨hg.1, hg.2⟩
              · exact (ih hls).1 hd hmem'
            · exact (ih hls).2

/-- The body assembled from the scanned lines satisfies the body invariant. -/
theorem wf_body_phase {ls : List Str} (hnl : ∀ l ∈ ls, '\n' ∉ l) :
    wfBody (joinNl (dropTrailingBlanks (ls.takeWhile (fun l => !isHttpLine l)))) := by
  have hAmem : ∀ l ∈ ls.takeWhile (fun l => !isHttpLine l), l ∈ ls :=
    fun l hl => (List.takeWhile_prefix _).sublist.mem hl
  have hAhttp : ∀ l ∈ ls.takeWhile (fun l => !isHttpLine l), isHttpLine l = false := by
    intro l hl
    have := List.mem_takeWhile_imp hl
    simpa using this
  have hYmem : ∀ l ∈ dropTrailingBlanks (ls.takeWhile (fun l => !isHttpLine l)),
      l ∈ ls.takeWhile (fun l => !isHttpLine l) :=
    fun l hl => (List.rdropWhile_prefix _ _).sublist.mem hl
  by_cases hYne : dropTrailingBlanks (ls.takeWhile (fun l => !isHttpLine l)) = []
  · rw [hYne]
    refine ⟨?_, Or.inl rfl⟩
    intro l hl
    simp only [joinNl, splitNl, List.mem_singleton] at hl
    subst hl
    exact isHttpLine_nil
  · have hYnl : ∀ l ∈ dropTrailingBlanks (ls.takeWhile (fun l => !isHttpLine l)), '\n' ∉ l :=
      fun l hl => hnl l (hAmem l (hYmem l hl))
    have hsplit : splitNl (joinNl (dropTrailingBlanks (ls.takeWhile (fun l => !isHttpLine l))))
        = dropTrailingBlanks (ls.takeWhile (fun l => !isHttpLine l)) := by
      rw [splitNl_joinNl hYne, flatten_map_splitNl hYnl]
    constructor
    · intro l hl
      rw [hsplit] at hl
      exact hAhttp l (hYmem l hl)
    · refine Or.inr ⟨(dropTrailingBlanks (ls.takeWhile (fun l => !isHttpLine l))).getLast hYne,
        ?_, ?_⟩
      · rw [hsplit, List.getLast?_eq_getLast_of_ne_nil hYne]
      · have hlast := List.rdropWhile_last_not (fun l => decide (trim l = []))
          (ls.takeWhile (fun l => !isHttpLine l)) hYne
        simpa using hlast

/-- A parsed response status contains no whitespace. -/
theorem wf_statusOf (l : Str) : ∀ c ∈ statusOf l, isWs c = false := by
  intro c hc
  unfold statusOf at hc
  cases hsw : splitWs (trim l) with
  | nil => rw [hsw] at hc; exact absurd hc (List.not_mem_nil c)
  | cons p0 rest =>
    cases rest with
    | nil => rw [hsw] at hc; exact absurd hc (List.not_mem_nil c)
    | cons p1 rest2 =>
      rw [hsw] at hc
      exact mem_splitWs_not_ws (trim l) p1
        (hsw ▸ List.mem_cons_of_mem p0 (List.mem_cons_self p1 rest2)) c hc

/-- Section lines pushed by the section loop satisfy the section invariant. -/
theorem wf_parseSections : ∀ {ls : List Str}, (∀ l ∈ ls, '\n' ∉ l) → ∀ sec : Sect,
    (∀ c ∈ (parseSections ls sec).1, wfSection c) ∧
    (∀ c ∈ (parseSections ls sec).2, wfSection c) := by
  intro ls
  induction ls with
  | nil => intro _ sec; simp [parseSections_nil]
  | cons l ls ih =>
    intro hnl sec
    have hl := hnl l (List.mem_cons_self l ls)
    have hls : ∀ x ∈ ls, '\n' ∉ x := fun x hx => hnl x (List.mem_cons_of_mem l hx)
    by_cases h1 : trim l = capMark
    · simp only [parseSections]
      rw [if_pos h1]
      exact ih hls _
    · by_cases h2 : trim l = assMark
      · simp only [parseSections]
        rw [if_neg h1, if_pos h2]
        exact ih hls _
      · have hwf : wfSection (trim l) :=
          ⟨trim_idem l, fun hc => hl (mem_of_mem_trim hc), h1, h2⟩
        simp only [parseSections]
        rw [if_neg h1, if_neg h2]
        cases sec with
        | secCaps =>
          refine ⟨?_, (ih hls _).2⟩
          intro c hc
          rcases List.mem_cons.mp hc with rfl | hc'
          · exact hwf
          · exact (ih hls _).1 c hc'
        | secAsserts =>
          refine ⟨(ih hls _).1, ?_⟩
          intro c hc
          rcases List.mem_cons.mp hc with rfl | hc'
          · exact hwf
          · exact (ih hls _).2 c hc'
        | secNone => exact ih hls _

theorem wf_emptyRequest : WF emptyRequest := by
  refine ⟨by decide, by decide, by decide, by decide, ?_, fun _ => by decide, rfl, by decide,
    ?_, ⟨?_, Or.inl rfl⟩, ?_, ?_, ?_⟩
  · intro c hc
    simp only [emptyRequest, List.head?_cons, Option.some.injEq] at hc
    subst hc
    decide
  · intro h hh
    exact absurd hh (List.not_mem_nil h)
  · intro l hl
    simp only [emptyRequest, splitNl, List.mem_singleton] at hl
    subst hl
    exact isHttpLine_nil
  · intro c hc
    exact absurd hc (List.not_mem_nil c)
  · intro c hc
    exact absurd hc (List.not_mem_nil c)
  · intro c hc
    exact absurd hc (List.not_mem_nil c)

/-- The parse of any list of newline-free lines is well-formed. -/
theorem wf_parseLines {ls : List Str} (hnl : ∀ l ∈ ls, '\n' ∉ l) : WF (parseLines ls) := by
  cases ls with
  | nil => exact wf_emptyRequest
  | cons first rest =>
    have h1 := wf_parseFirstLine (hnl first (List.mem_cons_self first rest))
    have hrest : ∀ l ∈ rest, '\n' ∉ l := fun l hl => hnl l (List.mem_cons_of_mem first hl)
    have h2 := wf_parseHeaders hrest
    have h3 := wf_body_phase h2.2
    have hrest2 : ∀ l ∈ (parseHeaders rest).2.dropWhile (fun l => !isHttpLine l), '\n' ∉ l :=
      fun l hl => h2.2 l ((List.dropWhile_suffix _).sublist.mem hl)
    simp only [parseLines]
    refine ⟨h1.1, h1.2.1, h1.2.2.1, h1.2.2.2.1, h1.2.2.2.2.1, h1.2.2.2.2.2.1,
      h1.2.2.2.2.2.2.1, h1.2.2.2.2.2.2.2, h2.1, h3, ?_, ?_, ?_⟩ <;>
      rcases hd : (parseHeaders rest).2.dropWhile (fun l => !isHttpLine l) with _ | ⟨x, xs⟩
    · simp
    · by_cases hx : isHttpLine x = true
      · simp only [hx, if_true]
        exact wf_statusOf x
      · simp only [hx, Bool.false_eq_true, if_false]
        simp
    · simp [parseSections_nil]
    · have hxs : ∀ l ∈ xs, '\n' ∉ l :=
        fun l hl => hrest2 l (hd ▸ List.mem_cons_of_mem x hl)
      have hxxs : ∀ l ∈ x :: xs, '\n' ∉ l := fun l hl => hrest2 l (hd ▸ hl)
      by_cases hx : isHttpLine x = true
      · simp only [hx, if_true]
        exact (wf_parseSections hxs Sect.secNone).1
      · simp only [hx, Bool.false_eq_true, if_false]
        exact (wf_parseSections hxxs Sect.secNone).1
    · simp [parseSections_nil]
    · have hxs : ∀ l ∈ xs, '\n' ∉ l :=
        fun l hl => hrest2 l (hd ▸ List.mem_cons_of_mem x hl)
      have hxxs : ∀ l ∈ x :: xs, '\n' ∉ l := fun l hl => hrest2 l (hd ▸ hl)
      by_cases hx : isHttpLine x = true
      · simp only [hx, if_true]
        exact (wf_parseSections hxs Sect.secNone).2
      · simp only [hx, Bool.false_eq_true, if_false]
        exact (wf_parseSections hxxs Sect.secNone).2

/-- Every document produced by `parseHurl` satisfies the invariant. -/
theorem wf_parseHurl (t : Str) : WF (parseHurl t) := by
  simp only [parseHurl]
  apply wf_parseLines
  intro l hl
  by_cases hpop : (splitNl t).getLast? = some []
  · rw [if_pos hpop] at hl
    exact no_nl_of_mem_splitNl ((List.dropLast_sublist _).mem hl)
  · rw [if_neg hpop] at hl
    exact no_nl_of_mem_splitNl hl

/-- Serialization does not distinguish an empty status from `"*"` when a
section is present, so the round-trip normalization is invisible to it. -/
theorem serialize_normStatus (r : HurlRequest) :
    serializeHurl (normStatus r) = serializeHurl r := by
  unfold normStatus
  by_cases hc : r.responseStatus = [] ∧ (r.captures ≠ [] ∨ r.asserts ≠ [])
  · rw [if_pos hc]
    unfold serializeHurl serializeLines
    simp only []
    rw [if_pos (Or.inl (by simp)), if_pos (Or.inr hc.2)]
    rw [if_neg (by decide : ¬(['*'] : Str) = []), if_pos hc.1]
  · rw [if_neg hc]

/-- The section loop in captures mode pushes each non-marker line trimmed. -/
theorem parseSections_caps_scan {cs : List Str}
    (h : ∀ l ∈ cs, trim l ≠ capMark ∧ trim l ≠ assMark) (r : List Str) :
    parseSections (cs ++ r) Sect.secCaps =
      (cs.map trim ++ (parseSections r Sect.secCaps).1, (parseSections r Sect.secCaps).2) := by
  induction cs with
  | nil => simp
  | cons c cs ih =>
    obtain ⟨h1, h2⟩ := h c (List.mem_cons_self c cs)
    rw [List.cons_append]
    simp only [parseSections, if_neg h1, if_neg h2]
    rw [ih (fun x hx => h x (List.mem_cons_of_mem c hx))]
    simp

/-- The section loop in asserts mode pushes each non-marker line trimmed. -/
theorem parseSections_asserts_scan {cs : List Str}
    (h : ∀ l ∈ cs, trim l ≠ capMark ∧ trim l ≠ assMark) (r : List Str) :
    parseSections (cs ++ r) Sect.secAsserts =
      ((parseSections r Sect.secAsserts).1,
        cs.map trim ++ (parseSections r Sect.secAsserts).2) := by
  induction cs with
  | nil => simp
  | cons c cs ih =>
    obtain ⟨h1, h2⟩ := h c (List.mem_cons_self c cs)
    rw [List.cons_append]
    simp only [parseSections, if_neg h1, if_neg h2]
    rw [ih (fun x hx => h x (List.mem_cons_of_mem c hx))]
    simp

/-! ## The result extractor (`response-panel.tsx`) -/

/-- One entry of an `entry.asserts` list in the runner's JSON trace. -/
structure AssertResult where
  line : Int
  success : Bool
  message : Option Str
deriving DecidableEq, Repr

structure RespHeader where
  name : Str
  value : Str
deriving DecidableEq, Repr

/-- A call's response in the JSON trace; both fields are optional in the
TypeScript type. -/
structure Response where
  status : Option Int
  headers : Option (List RespHeader)
deriving DecidableEq, Repr

structure Call where
  response : Option Response
deriving DecidableEq, Repr

structure Entry where
  asserts : Option (List AssertResult)
  calls : Option (List Call)
deriving DecidableEq, Repr

structure Trace where
  entries : Option (List Entry)
deriving DecidableEq, Repr

/-- `RunResult`: `json` is `None` when the runner's stdout was not valid JSON. -/
structure RunResult where
  success : Bool
  duration : Int
  json : Option Trace
  stdout : Str
  stderr : Str
deriving DecidableEq, Repr

/-- The literal `"* Response body:"`. -/
def respBodyMark : Str := "* Response body:".data

/-- The literal `"* Timings:"`. -/
def timingsMark : Str := "* Timings:".data

/-- `line.startsWith("* ") ? line.slice(2) : line`. -/
def stripStar (l : Str) : Str := if hasPrefix l ['*', ' '] then l.drop 2 else l

/-- The scan loop of `extractBodyFromVerbose` (lines 29–38): a `capturing`
flag, marker lines (re)arm it and are skipped, a `"*"` or `"* Timings:"` line
stops the loop, other captured lines are collected with `"* "` stripped. -/
def extractLoop : List Str → Bool → List Str
  | [], _ => []
  | l :: ls, capturing =>
    if hasPrefix l respBodyMark then extractLoop ls true
    else if capturing then
      if l = ['*'] ∨ hasPrefix l timingsMark = true then []
      else stripStar l :: extractLoop ls true
    else extractLoop ls false

/-- `extractBodyFromVerbose` (lines 25–40 of `response-panel.tsx`). -/
def extractBodyFromVerbose (stderr : Str) : Str :=
  joinNl (extractLoop (splitNl stderr) false)

/-- `result.json?.entries ?? []`, the entry list the extractor consumes. -/
def entriesOf (r : RunResult) : List Entry := (r.json.bind (fun j => j.entries)).getD []

/-- The structured view returned by `extractResponseInfo`. -/
structure ResponseInfo where
  status : Int
  headers : List RespHeader
  body : Str
  asserts : List AssertResult
deriving DecidableEq, Repr

/-- `extractResponseInfo` (lines 42–73): body from the verbose text; on an
empty trace fall back to raw stderr (`body || result.stderr`) with status 0;
otherwise surface the last entry's last call's response and that entry's
asserts. -/
def extractResponseInfo (r : RunResult) : ResponseInfo :=
  let body := extractBodyFromVerbose r.stderr
  match (entriesOf r).getLast? with
  | none => ⟨0, [], if body = [] then r.stderr else body, []⟩
  | some lastEntry =>
    let response := (lastEntry.calls.getD []).getLast?.bind (fun c => c.response)
    { status := (response.bind (fun q => q.status)).getD 0
      headers := (response.bind (fun q => q.headers)).getD []
      body := body
      asserts := lastEntry.asserts.getD [] }

/-- `sourceLines[line - 1]?.trim() ?? ""` with a 1-indexed (JSON) line number. -/
def srcLineTrim (sourceLines : List Str) (line : Int) : Str :=
  if 1 ≤ line then trim (sourceLines.getD (line - 1).toNat []) else []

/-- The `explicitAsserts` filter of `ResponsePanel` (lines 115–118): drop
assertions whose source line starts with `HTTP`. -/
def explicitAsserts (sourceLines : List Str) (asserts : List AssertResult) :
    List AssertResult :=
  asserts.filter (fun a => !(hasPrefix (srcLineTrim sourceLines a.line) httpPre))

/-- `passCount` (line 120). -/
def passCount (sourceLines : List Str) (asserts : List AssertResult) : Nat :=
  ((explicitAsserts sourceLines asserts).filter (fun a => a.success)).length

/-- `failCount` (line 121). -/
def failCount (sourceLines : List Str) (asserts : List AssertResult) : Nat :=
  ((explicitAsserts sourceLines asserts).filter (fun a => !a.success)).length

theorem term_not_marker {t : Str} (ht : t = ['*'] ∨ hasPrefix t timingsMark = true) :
    hasPrefix t respBodyMark = false := by
  rcases ht with rfl | ht
  · rfl
  · obtain ⟨z, rfl⟩ := hasPrefix_iff_isPrefix.mp ht
    rfl

theorem extractLoop_skip {pre : List Str}
    (hpre : ∀ l ∈ pre, hasPrefix l respBodyMark = false) (rest : List Str) :
    extractLoop (pre ++ rest) false = extractLoop rest false := by
  induction pre with
  | nil => rfl
  | cons p pre ih =>
    rw [List.cons_append]
    simp only [extractLoop, hpre p (List.mem_cons_self p pre), Bool.false_eq_true, if_false]
    exact ih (fun l hl => hpre l (List.mem_cons_of_mem p hl))

theorem extractLoop_capture {mid : List Str}
    (hmid : ∀ l ∈ mid, hasPrefix l respBodyMark = false ∧ l ≠ ['*'] ∧
      hasPrefix l timingsMark = false)
    {t : Str} (ht : t = ['*'] ∨ hasPrefix t timingsMark = true) (rest : List Str) :
    extractLoop (mid ++ t :: rest) true = mid.map stripStar := by
  induction mid with
  | nil =>
    rw [List.nil_append]
    simp only [extractLoop, term_not_marker ht, Bool.false_eq_true, if_false, if_pos ht]
    rfl
  | cons p mid ih =>
    obtain ⟨h1, h2, h3⟩ := hmid p (List.mem_cons_self p mid)
    rw [List.cons_append]
    simp only [extractLoop, h1, Bool.false_eq_true, if_false, if_true]
    rw [if_neg (by simp [h2, h3])]
    rw [ih (fun l hl => hmid l (List.mem_cons_of_mem p hl))]
    rfl

/-- The scan of `extractBodyFromVerbose`, characterized: the first line
starting with the marker opens the capture, lines up to the first terminator
are collected with `"* "` stripped. -/
theorem extractBody_scan {stderr : Str} {pre mid rest : List Str} {m t : Str}
    (hsplit : splitNl stderr = pre ++ m :: mid ++ t :: rest)
    (hpre : ∀ l ∈ pre, hasPrefix l respBodyMark = false)
    (hm : hasPrefix m respBodyMark = true)
    (hmid : ∀ l ∈ mid, hasPrefix l respBodyMark = false ∧ l ≠ ['*'] ∧
      hasPrefix l timingsMark = false)
    (ht : t = ['*'] ∨ hasPrefix t timingsMark = true) :
    extractBodyFromVerbose stderr = joinNl (mid.map stripStar) := by
  unfold extractBodyFromVerbose
  rw [hsplit, List.append_assoc, List.cons_append,
    extractLoop_skip hpre (m :: (mid ++ t :: rest))]
  simp only [extractLoop, hm, if_true]
  rw [extractLoop_capture hmid ht rest]

/-! ## Claims -/

/-- C1 (counterexample): the round-trip law fails as stated.  For the input
`"GET /x\nHTTP\n[Captures]\nstatus"` the parsed document has an empty
`responseStatus` (the `HTTP` line has no second token) and a non-empty
captures list; re-parsing its serialization yields `responseStatus = "*"`,
which is neither a method-case nor a whitespace/blank-line difference. -/
theorem claim1_counterexample :
    (parseHurl ("GET /x\nHTTP\n[Captures]\nstatus".data)).responseStatus = [] ∧
    (parseHurl (serializeHurl
      (parseHurl ("GET /x\nHTTP\n[Captures]\nstatus".data)))).responseStatus = ['*'] := by
  decide

/-- C1 (amended): for every document `d = parseHurl text`, re-parsing the
serialization reproduces `d` field-wise, the only difference beyond
method-case uppercasing and blank-line/whitespace normalization being that an
empty `responseStatus` is rendered `"*"` when a captures or asserts section
is present (`normStatus`). -/
theorem claim1_roundtrip_amended (t : Str) :
    parseHurl (serializeHurl (parseHurl t)) = normStatus (parseHurl t) :=
  parse_serialize_of_wf (wf_parseHurl t)

/-- C2 (counterexample): idempotent re-serialization fails for arbitrary
well-typed documents.  The document with every field empty serializes to
`" \n"`, which parses back to the default `GET` document, whose serialization
`"GET \n"` differs. -/
theorem claim2_counterexample :
    serializeHurl (parseHurl (serializeHurl ⟨[], [], [], [], [], [], []⟩)) ≠
      serializeHurl (⟨[], [], [], [], [], [], []⟩ : HurlRequest) := by
  decide

/-- C2 (amended): `serialize (parse (serialize d)) = serialize d` holds for
every `d` in the range of the parser, i.e. for `d = parseHurl t`. -/
theorem claim2_reserialize_amended (t : Str) :
    serializeHurl (parseHurl (serializeHurl (parseHurl t)))
      = serializeHurl (parseHurl t) := by
  rw [parse_serialize_of_wf (wf_parseHurl t)]
  exact serialize_normStatus (parseHurl t)

/-- C3: parsing `"GET /x\nAuthorization: Bearer abc\n\n\x7b\"a\": 1\x7d\n\nHTTP 200"`
yields exactly one header `Authorization: Bearer abc`, body `{"a": 1}` and
response status `200`; the JSON body line is not classified as a header
despite containing a colon. -/
theorem claim3_header_colon_disambiguation :
    parseHurl ("GET /x\nAuthorization: Bearer abc\n\n\x7b\"a\": 1\x7d\n\nHTTP 200".data) =
      ⟨"GET".data, "/x".data, [⟨"Authorization".data, "Bearer abc".data⟩],
        "\x7b\"a\": 1\x7d".data, "200".data, [], []⟩ := by
  decide

/-- C4 (counterexample): section lines are not appended verbatim.  The
asserts line `"  a  "` is stored as `"a"`, which differs character for
character from the original line. -/
theorem claim4_counterexample :
    (parseHurl ("GET /x\nHTTP 200\n[Asserts]\n  a  ".data)).asserts = ["a".data] ∧
    "a".data ≠ "  a  ".data := by
  decide

/-- C4 (amended): every line after a `[Captures]` marker and before the next
marker (and every line after the `[Asserts]` marker) is appended to the
corresponding sequence after whitespace trimming — blank lines are preserved
as empty strings, but leading/trailing whitespace is removed. -/
theorem claim4_sections_trimmed (mid post : List Str)
    (hmid : ∀ l ∈ mid, trim l ≠ capMark ∧ trim l ≠ assMark)
    (hpost : ∀ l ∈ post, trim l ≠ capMark ∧ trim l ≠ assMark) :
    parseSections (capMark :: mid ++ assMark :: post) Sect.secNone =
      (mid.map trim, post.map trim) := by
  rw [show (capMark :: mid) ++ (assMark :: post) = capMark :: (mid ++ assMark :: post) from
    List.cons_append capMark mid _]
  simp only [parseSections, if_pos (show trim capMark = capMark by decide)]
  rw [parseSections_caps_scan hmid (assMark :: post)]
  simp only [parseSections, if_neg (show trim assMark ≠ capMark by decide),
    if_pos (show trim assMark = assMark by decide)]
  rw [show post = post ++ [] by simp, parseSections_asserts_scan hpost []]
  simp [parseSections_nil]

/-- C4 (witness): a section block containing a padded line and a blank line
parses to the trimmed line and the preserved empty line. -/
theorem claim4_witness :
    parseSections (capMark :: ["  x  ".data, []] ++ assMark :: ["ok".data]) Sect.secNone =
      (["x".data, []], ["ok".data]) := by
  rw [claim4_sections_trimmed ["  x  ".data, []] ["ok".data] (by decide) (by decide)]
  decide

/-- C5: the parser is total — every string yields a document — and malformed
input degrades gracefully: the empty string gives the defaulted document and
a single line without structure becomes method and url. -/
theorem claim5_parser_total :
    (∀ s : Str, ∃ r : HurlRequest, parseHurl s = r) ∧
    parseHurl [] = emptyRequest ∧
    parseHurl "no newline here".data =
      { emptyRequest with method := "NO".data, url := "newline here".data } := by
  refine ⟨fun s => ⟨parseHurl s, rfl⟩, by decide, by decide⟩

/-- C6: a document with at least one capture and at least one assert always
serializes the `[Captures]` line strictly before the `[Asserts]` line: the
built lines are some prefix followed by `[Captures]`, the captures,
`[Asserts]`, the asserts, and the final blank line. -/
theorem claim6_section_ordering (r : HurlRequest) (hc : r.captures ≠ [])
    (ha : r.asserts ≠ []) :
    ∃ p : List Str, serializeLines r =
      p ++ [capMark] ++ r.captures ++ [assMark] ++ r.asserts ++ [[]] := by
  refine ⟨[r.method ++ ' ' :: r.url] ++ r.headers.map hline
    ++ (if trim r.body = [] then [] else [[], r.body])
    ++ [[], httpPre ++ ' ' :: (if r.responseStatus = [] then ['*'] else r.responseStatus)], ?_⟩
  unfold serializeLines
  rw [if_pos (Or.inr (Or.inl hc)), if_neg hc, if_neg ha]
  simp

/-- C6 (witness): the ordering at a concrete document with one capture and
one assert. -/
theorem claim6_witness :
    ∃ p : List Str, serializeLines ⟨"GET".data, "/".data, [], [], [],
      ["c1".data], ["a1".data]⟩ =
      p ++ [capMark] ++ ["c1".data] ++ [assMark] ++ ["a1".data] ++ [[]] :=
  claim6_section_ordering _ (by decide) (by decide)

/-- C7: an assertion whose 1-indexed line number points at a source line that
(after trimming) begins with `HTTP` is excluded from the displayed assertion
list, and contributes to neither the pass count nor the fail count. -/
theorem claim7_implicit_assert_excluded (srcText : Str) (as : List AssertResult)
    (a : AssertResult)
    (h : hasPrefix (srcLineTrim (splitNl srcText) a.line) httpPre = true) :
    a ∉ explicitAsserts (splitNl srcText) as ∧
    passCount (splitNl srcText) (as ++ [a]) = passCount (splitNl srcText) as ∧
    failCount (splitNl srcText) (as ++ [a]) = failCount (splitNl srcText) as := by
  have hp : (fun x => !(hasPrefix (srcLineTrim (splitNl srcText) x.line) httpPre)) a
      = false := by simp [h]
  refine ⟨?_, ?_, ?_⟩
  · intro hmem
    have := (List.mem_filter.mp hmem).2
    rw [h] at this
    exact Bool.noConfusion this
  · unfold passCount explicitAsserts
    rw [List.filter_append]
    simp [hp]
  · unfold failCount explicitAsserts
    rw [List.filter_append]
    simp [hp]

/-- C7 (witness): with source text whose line 2 is `HTTP 200`, an assertion
entry at line 2 is excluded from the displayed list and the counts. -/
theorem claim7_witness :
    (⟨2, true, none⟩ : AssertResult) ∉
      explicitAsserts (splitNl "GET /x\nHTTP 200\n[Asserts]\nx == 1".data)
        [⟨4, true, none⟩, ⟨2, true, none⟩] ∧
    passCount (splitNl "GET /x\nHTTP 200\n[Asserts]\nx == 1".data)
      ([⟨4, true, none⟩] ++ [⟨2, true, none⟩]) =
    passCount (splitNl "GET /x\nHTTP 200\n[Asserts]\nx == 1".data) [⟨4, true, none⟩] ∧
    failCount (splitNl "GET /x\nHTTP 200\n[Asserts]\nx == 1".data)
      ([⟨4, true, none⟩] ++ [⟨2, true, none⟩]) =
    failCount (splitNl "GET /x\nHTTP 200\n[Asserts]\nx == 1".data) [⟨4, true, none⟩] := by
  have h := claim7_implicit_assert_excluded "GET /x\nHTTP 200\n[Asserts]\nx == 1".data
    [⟨4, true, none⟩, ⟨2, true, none⟩] ⟨2, true, none⟩ (by decide)
  exact ⟨h.1, (claim7_implicit_assert_excluded "GET /x\nHTTP 200\n[Asserts]\nx == 1".data
    [⟨4, true, none⟩] ⟨2, true, none⟩ (by decide)).2.1,
    (claim7_implicit_assert_excluded "GET /x\nHTTP 200\n[Asserts]\nx == 1".data
    [⟨4, true, none⟩] ⟨2, true, none⟩ (by decide)).2.2⟩

/-- C8 (counterexample): the scan matches by `startsWith`, not literal
equality.  In the stderr `"* Response body: X\nhello\n*"` no line is literally
equal to `"* Response body:"` and there is no JSON trace, so by the claim the
displayed body would have to fall back to the raw stderr; the code instead
displays `"hello"`, extracted because the first line merely starts with the
marker. -/
theorem claim8_counterexample :
    ((splitNl "* Response body: X\nhello\n*".data).all (fun l => l ≠ respBodyMark)) = true ∧
    (extractResponseInfo ⟨false, 0, none, [], "* Response body: X\nhello\n*".data⟩).body
      = "hello".data ∧
    "hello".data ≠ "* Response body: X\nhello\n*".data := by
  decide

/-- C8 (amended): the displayed body is obtained by scanning stderr for the
first line that starts with `"* Response body:"`, joining the following lines
(skipping further marker lines, stripping a leading `"* "`) up to but
excluding the first line that is exactly `"*"` or starts with `"* Timings:"`;
this verbose extraction is used even when a JSON trace exists, and the
displayed body falls back to the raw stderr exactly when the scan yields
nothing and no trace entry exists. -/
theorem claim8_body_extraction_amended :
    (∀ (stderr : Str) (pre mid rest : List Str) (m t : Str),
      splitNl stderr = pre ++ m :: mid ++ t :: rest →
      (∀ l ∈ pre, hasPrefix l respBodyMark = false) →
      hasPrefix m respBodyMark = true →
      (∀ l ∈ mid, hasPrefix l respBodyMark = false ∧ l ≠ ['*'] ∧
        hasPrefix l timingsMark = false) →
      (t = ['*'] ∨ hasPrefix t timingsMark = true) →
      extractBodyFromVerbose stderr = joinNl (mid.map stripStar)) ∧
    (∀ r : RunResult, entriesOf r ≠ [] →
      (extractResponseInfo r).body = extractBodyFromVerbose r.stderr) ∧
    (∀ r : RunResult, entriesOf r = [] →
      (extractResponseInfo r).body =
        (if extractBodyFromVerbose r.stderr = [] then r.stderr
         else extractBodyFromVerbose r.stderr)) := by
  refine ⟨fun stderr pre mid rest m t hsplit hpre hm hmid ht =>
    extractBody_scan hsplit hpre hm hmid ht, ?_, ?_⟩
  · intro r hr
    unfold extractResponseInfo
    rcases he : (entriesOf r).getLast? with _ | e
    · rw [List.getLast?_eq_none_iff] at he
      exact absurd he hr
    · simp
  · intro r hr
    unfold extractResponseInfo
    rw [hr]
    simp

/-- C8 (witness): the three clauses at concrete inputs — a stderr with a
marker block extracts the stripped middle lines; with one trace entry the
verbose extraction is still the displayed body; with an empty trace and an
empty scan the raw stderr is displayed. -/
theorem claim8_witness :
    extractBodyFromVerbose "* Connected\n* Response body:\n* {hi}\nplain\n*\nafter".data
      = joinNl ((["* {hi}".data, "plain".data]).map stripStar) ∧
    (extractResponseInfo ⟨true, 5, some ⟨some [⟨some [], some []⟩]⟩, [], "x".data⟩).body
      = extractBodyFromVerbose ("x".data : Str) ∧
    (extractResponseInfo ⟨false, 0, none, [], "oops".data⟩).body
      = (if extractBodyFromVerbose ("oops".data : Str) = [] then "oops".data
         else extractBodyFromVerbose ("oops".data : Str)) :=
  ⟨claim8_body_extraction_amended.1 "* Connected\n* Response body:\n* {hi}\nplain\n*\nafter".data
      ["* Connected".data] ["* {hi}".data, "plain".data] ["after".data]
      "* Response body:".data ['*'] (by decide) (by decide) (by decide) (by decide) (by decide),
   claim8_body_extraction_amended.2.1 ⟨true, 5, some ⟨some [⟨some [], some []⟩]⟩, [], "x".data⟩
      (by decide),
   claim8_body_extraction_amended.2.2 ⟨false, 0, none, [], "oops".data⟩ (by decide)⟩

/-- C9: when the JSON trace has at least one entry, the displayed status and
headers come from the response of the last call of the last entry, and the
displayed assertion outcomes are that last entry's asserts list. -/
theorem claim9_last_entry_last_call (r : RunResult) (init : List Entry) (e : Entry)
    (h : entriesOf r = init ++ [e]) :
    (extractResponseInfo r).asserts = e.asserts.getD [] ∧
    ∀ (cinit : List Call) (c : Call), e.calls.getD [] = cinit ++ [c] →
      (extractResponseInfo r).status = (c.response.bind (fun q => q.status)).getD 0 ∧
      (extractResponseInfo r).headers = (c.response.bind (fun q => q.headers)).getD [] := by
  have he : (entriesOf r).getLast? = some e := by rw [h, List.getLast?_concat]
  have hval : extractResponseInfo r =
      { status := (((e.calls.getD []).getLast?.bind (fun c => c.response)).bind
          (fun q => q.status)).getD 0
        headers := (((e.calls.getD []).getLast?.bind (fun c => c.response)).bind
          (fun q => q.headers)).getD []
        body := extractBodyFromVerbose r.stderr
        asserts := e.asserts.getD [] } := by
    unfold extractResponseInfo
    rw [he]
  rw [hval]
  refine ⟨rfl, ?_⟩
  intro cinit c hc
  rw [hc, List.getLast?_concat]
  exact ⟨rfl, rfl⟩

/-- C9 (witness): with two entries of two calls each, the displayed data is
the second entry's second call's response and the second entry's asserts. -/
theorem claim9_witness :
    (extractResponseInfo ⟨true, 1,
      some ⟨some [⟨some [⟨1, false, none⟩], some [⟨some ⟨some 301, some []⟩⟩]⟩,
                  ⟨some [⟨7, true, none⟩],
                   some [⟨some ⟨some 302, some []⟩⟩,
                         ⟨some ⟨some 200, some [⟨"k".data, "v".data⟩]⟩⟩]⟩]⟩,
      [], []⟩).asserts = [⟨7, true, none⟩] ∧
    (extractResponseInfo ⟨true, 1,
      some ⟨some [⟨some [⟨1, false, none⟩], some [⟨some ⟨some 301, some []⟩⟩]⟩,
                  ⟨some [⟨7, true, none⟩],
                   some [⟨some ⟨some 302, some []⟩⟩,
                         ⟨some ⟨some 200, some [⟨"k".data, "v".data⟩]⟩⟩]⟩]⟩,
      [], []⟩).status = 200 ∧
    (extractResponseInfo ⟨true, 1,
      some ⟨some [⟨some [⟨1, false, none⟩], some [⟨some ⟨some 301, some []⟩⟩]⟩,
                  ⟨some [⟨7, true, none⟩],
                   some [⟨some ⟨some 302, some []⟩⟩,
                         ⟨some ⟨some 200, some [⟨"k".data, "v".data⟩]⟩⟩]⟩]⟩,
      [], []⟩).headers = [⟨"k".data, "v".data⟩] := by
  have h := claim9_last_entry_last_call ⟨true, 1,
      some ⟨some [⟨some [⟨1, false, none⟩], some [⟨some ⟨some 301, some []⟩⟩]⟩,
                  ⟨some [⟨7, true, none⟩],
                   some [⟨some ⟨some 302, some []⟩⟩,
                         ⟨some ⟨some 200, some [⟨"k".data, "v".data⟩]⟩⟩]⟩]⟩,
      [], []⟩
    [⟨some [⟨1, false, none⟩], some [⟨some ⟨some 301, some []⟩⟩]⟩]
    ⟨some [⟨7, true, none⟩],
     some [⟨some ⟨some 302, some []⟩⟩, ⟨some ⟨some 200, some [⟨"k".data, "v".data⟩]⟩⟩]⟩
    (by decide)
  have h2 := h.2 [⟨some ⟨some 302, some []⟩⟩] ⟨some ⟨some 200, some [⟨"k".data, "v".data⟩]⟩⟩
    (by decide)
  exact ⟨by rw [h.1]; rfl, by rw [h2.1]; rfl, by rw [h2.2]; rfl⟩

/-- C10: appending a single newline to a string that does not already end
with one does not change the parse (the file-ending newline's empty line is
popped); and this holds for exactly one newline — a concrete input already
ending in a newline parses differently once another newline is appended. -/
theorem claim10_trailing_newline :
    (∀ s : Str, s.getLast? ≠ some '\n' → parseHurl (s ++ ['\n']) = parseHurl s) ∧
    parseHurl ("GET /x\nHTTP 200\n[Asserts]\na\n".data ++ ['\n']) ≠
      parseHurl "GET /x\nHTTP 200\n[Asserts]\na\n".data := by
  constructor
  · intro s hns
    by_cases hs0 : s = []
    · subst hs0
      decide
    · have hsp : splitNl (s ++ ['\n']) = splitNl s ++ [[]] := by
        have := splitNl_append_cons s []
        simpa [splitNl] using this
      simp only [parseHurl]
      rw [hsp]
      have h1 : (splitNl s ++ [[]]).getLast? = some ([] : Str) := by
        rw [List.getLast?_append_of_ne_nil _ (by simp)]
        rfl
      rw [if_pos h1, List.dropLast_concat]
      have h2 : (splitNl s).getLast? ≠ some [] := by
        intro hcon
        rcases getLast?_splitNl_eq_nil hcon with rfl | hend
        · exact hs0 rfl
        · exact hns hend
      rw [if_neg h2]
  · decide

/-- C10 (witness): the newline-appending law applied at `"GET /x"`. -/
theorem claim10_witness :
    ("GET /x".data : Str).getLast? ≠ some '\n' ∧
    parseHurl ("GET /x".data ++ ['\n']) = parseHurl "GET /x".data :=
  ⟨by decide, claim10_trailing_newline.1 "GET /x".data (by decide)⟩

end Hurl
